import Mathlib

/-!
Verification of the centerline (one-line) path-extraction pipeline of
`src/tools/gen.py` against its natural-language specification.

The Python code is shallowly embedded: binary images (`numpy` boolean
arrays of shape `h × w`) become total functions `Int → Int → Bool` that
are `false` outside the index rectangle `[0,h) × [0,w)`; points in
millimeter space become pairs of rationals. The Euclidean distance
`_dist` (`math.hypot`) returns irrational values, so every definition
that calls it is parametrised by an abstract distance function
`d : Point → Point → ℚ`; all theorems quantify over every `d`, hence in
particular cover the Euclidean instance. `np.roll` wraps around, which
the embedding reproduces with `Int.emod`.
-/

namespace Firmwork

/-- A point in millimeter space (`Tuple[float, float]` in the source). -/
abbrev Point : Type := ℚ × ℚ

/-- `@dataclass(frozen=True) class Stroke: pts: List[Tuple[float, float]]`. -/
structure Stroke where
  pts : List Point
deriving DecidableEq, Repr

/-- A binary image: `numpy` boolean array as a total function, `false`
intended outside the `h × w` rectangle. -/
abbrev Grid : Type := Int → Int → Bool

/-- Index is inside the `h × w` rectangle. -/
def inB (h w : Nat) (i j : Int) : Bool :=
  decide (0 ≤ i) && decide (i < (h : Int)) && decide (0 ≤ j) && decide (j < (w : Int))

/-- Number of `true` cells of the `h × w` image (`mask.sum()`). -/
def gridCount (h w : Nat) (g : Grid) : Nat :=
  ((List.range h).map
    (fun i => ((List.range w).filter (fun j => g (i : Int) (j : Int))).length)).sum

/-- List of offsets `-r, …, r` realised as `List.range (2r+1)` shifted. -/
def offRange (r : Nat) : List Int :=
  (List.range (2 * r + 1)).map (fun (k : Nat) => (k : Int) - (r : Int))

/-- `_binary_dilate(mask, radius_px)`: `out[i,j]` is true iff some in-bounds
cell within Chebyshev radius `r` is true; `radius_px <= 0` returns the mask. -/
def binary_dilate (h w : Nat) (radius : Int) (mask : Grid) : Grid :=
  if radius ≤ 0 then mask
  else fun i j =>
    inB h w i j &&
      (offRange radius.toNat).any (fun dr =>
        (offRange radius.toNat).any (fun dc =>
          inB h w (i + dr) (j + dc) && mask (i + dr) (j + dc)))

/-- `~mask` on an `h × w` boolean array, as a total function (false outside). -/
def gridCompl (h w : Nat) (mask : Grid) : Grid :=
  fun i j => inB h w i j && !(mask i j)

/-- `_binary_erode(mask, radius_px) = ~_binary_dilate(~mask, radius_px)`. -/
def binary_erode (h w : Nat) (radius : Int) (mask : Grid) : Grid :=
  if radius ≤ 0 then mask
  else gridCompl h w (binary_dilate h w radius (gridCompl h w mask))

/-- `_binary_close(mask, radius_px) = erode(dilate(mask, r), r)`. -/
def binary_close (h w : Nat) (radius : Int) (mask : Grid) : Grid :=
  if radius ≤ 0 then mask
  else binary_erode h w radius (binary_dilate h w radius mask)

/-- `chaikin_smooth`'s inner loop over consecutive pairs: for each edge
`(out[i], out[i+1])` appends the 25%/75% blend points `q` and `r`. -/
def chaikinPairs : List Point → List Point
  | x :: y :: rest =>
      ((3 : ℚ)/4 * x.1 + 1/4 * y.1, 3/4 * x.2 + 1/4 * y.2) ::
      ((1 : ℚ)/4 * x.1 + 3/4 * y.1, 1/4 * x.2 + 3/4 * y.2) ::
      chaikinPairs (y :: rest)
  | _ => []

/-- One iteration of `chaikin_smooth`: `[out[0]] ++ blended pairs ++ [out[-1]]`. -/
def chaikinStep (pts : List Point) : List Point :=
  match pts with
  | [] => []
  | p :: rest => p :: (chaikinPairs (p :: rest) ++ [(p :: rest).getLast (by simp)])

/-- `chaikin_smooth(pts, iters)`. -/
def chaikin_smooth (pts : List Point) (iters : Int) : List Point :=
  if iters ≤ 0 ∨ pts.length < 3 then pts
  else chaikinStep^[iters.toNat] pts

/-- Loop of `stitch_strokes`: `cur` is the accumulating point list, the
second argument the strokes still to scan. -/
def stitchGo (d : Point → Point → ℚ) (stitch_mm : ℚ) :
    List Point → List Stroke → List Stroke
  | cur, [] => [⟨cur⟩]
  | cur, st :: rest =>
    if d (cur.getLastD (0, 0)) (st.pts.headD (0, 0)) ≤ stitch_mm then
      if d (cur.getLastD (0, 0)) (st.pts.headD (0, 0)) > 1 / 1000000000 then
        stitchGo d stitch_mm ((cur ++ [st.pts.headD (0, 0)]) ++ st.pts.tail) rest
      else
        stitchGo d stitch_mm (cur ++ st.pts.tail) rest
    else
      ⟨cur⟩ :: stitchGo d stitch_mm st.pts rest

/-- `stitch_strokes(strokes, stitch_mm)` with the `1e-9` coincidence test;
`d` abstracts `_dist`. -/
def stitch_strokes (d : Point → Point → ℚ) (strokes : List Stroke)
    (stitch_mm : ℚ) : List Stroke :=
  if stitch_mm ≤ 0 ∨ strokes = [] then strokes
  else stitchGo d stitch_mm ((strokes.headD ⟨[]⟩).pts) strokes.tail

/-- Loop of `bridge_strokes` — textually the same algorithm as `stitchGo`. -/
def bridgeGo (d : Point → Point → ℚ) (bridge_mm : ℚ) :
    List Point → List Stroke → List Stroke
  | cur, [] => [⟨cur⟩]
  | cur, st :: rest =>
    if d (cur.getLastD (0, 0)) (st.pts.headD (0, 0)) ≤ bridge_mm then
      if d (cur.getLastD (0, 0)) (st.pts.headD (0, 0)) > 1 / 1000000000 then
        bridgeGo d bridge_mm ((cur ++ [st.pts.headD (0, 0)]) ++ st.pts.tail) rest
      else
        bridgeGo d bridge_mm (cur ++ st.pts.tail) rest
    else
      ⟨cur⟩ :: bridgeGo d bridge_mm st.pts rest

/-- `bridge_strokes(strokes, bridge_mm)` — same merge mechanism as
`stitch_strokes` at an independently configured threshold. -/
def bridge_strokes (d : Point → Point → ℚ) (strokes : List Stroke)
    (bridge_mm : ℚ) : List Stroke :=
  if bridge_mm ≤ 0 ∨ strokes = [] then strokes
  else bridgeGo d bridge_mm ((strokes.headD ⟨[]⟩).pts) strokes.tail

/-! ### Zhang–Suen thinning (`_zhang_suen_thin`) -/

/-- Read a neighbor through `np.roll`'s wrap-around indexing:
`img[(i+di) % h, (j+dj) % w]`. -/
def pAt (h w : Nat) (g : Grid) (i j di dj : Int) : Bool :=
  g ((i + di) % (h : Int)) ((j + dj) % (w : Int))

/-- `uint8` view of a boolean pixel. -/
def b01 (b : Bool) : Nat := if b then 1 else 0

/-- `B`: number of live pixels among the eight rolled neighbors `P2..P9`. -/
def nbrB (h w : Nat) (g : Grid) (i j : Int) : Nat :=
  b01 (pAt h w g i j 1 0) + b01 (pAt h w g i j 1 (-1)) + b01 (pAt h w g i j 0 (-1)) +
  b01 (pAt h w g i j (-1) (-1)) + b01 (pAt h w g i j (-1) 0) + b01 (pAt h w g i j (-1) 1) +
  b01 (pAt h w g i j 0 1) + b01 (pAt h w g i j 1 1)

/-- One `0→1` transition between consecutive ring positions. -/
def trans01 (x y : Bool) : Nat := if !x && y then 1 else 0

/-- `A`: number of `0→1` transitions in the ring `P2,P3,…,P9,P2`. -/
def nbrA (h w : Nat) (g : Grid) (i j : Int) : Nat :=
  trans01 (pAt h w g i j 1 0) (pAt h w g i j 1 (-1)) +
  trans01 (pAt h w g i j 1 (-1)) (pAt h w g i j 0 (-1)) +
  trans01 (pAt h w g i j 0 (-1)) (pAt h w g i j (-1) (-1)) +
  trans01 (pAt h w g i j (-1) (-1)) (pAt h w g i j (-1) 0) +
  trans01 (pAt h w g i j (-1) 0) (pAt h w g i j (-1) 1) +
  trans01 (pAt h w g i j (-1) 1) (pAt h w g i j 0 1) +
  trans01 (pAt h w g i j 0 1) (pAt h w g i j 1 1) +
  trans01 (pAt h w g i j 1 1) (pAt h w g i j 1 0)

/-- First-subiteration removal mask `m1` (corner products `P2·P4·P6` and
`P4·P6·P8`). -/
def thinCond1 (h w : Nat) (g : Grid) (i j : Int) : Bool :=
  g i j && decide (2 ≤ nbrB h w g i j) && decide (nbrB h w g i j ≤ 6) &&
    decide (nbrA h w g i j = 1) &&
    !(pAt h w g i j 1 0 && pAt h w g i j 0 (-1) && pAt h w g i j (-1) 0) &&
    !(pAt h w g i j 0 (-1) && pAt h w g i j (-1) 0 && pAt h w g i j 0 1)

/-- Second-subiteration removal mask `m2` (corner products `P2·P4·P8` and
`P2·P6·P8`). -/
def thinCond2 (h w : Nat) (g : Grid) (i j : Int) : Bool :=
  g i j && decide (2 ≤ nbrB h w g i j) && decide (nbrB h w g i j ≤ 6) &&
    decide (nbrA h w g i j = 1) &&
    !(pAt h w g i j 1 0 && pAt h w g i j 0 (-1) && pAt h w g i j 0 1) &&
    !(pAt h w g i j 1 0 && pAt h w g i j (-1) 0 && pAt h w g i j 0 1)

/-- `clear_borders`: zero the one-pixel image border. -/
def clearBorders (h w : Nat) (g : Grid) : Grid := fun i j =>
  if i = 0 ∨ i = (h : Int) - 1 ∨ j = 0 ∨ j = (w : Int) - 1 then false else g i j

/-- `np.any` over the `h × w` cells of a boolean condition. -/
def anyCell (h w : Nat) (p : Int → Int → Bool) : Bool :=
  (List.range h).any (fun i => (List.range w).any (fun j => p (i : Int) (j : Int)))

/-- First subiteration: remove the `m1` pixels, then clear borders. -/
def thinSub1 (h w : Nat) (g : Grid) : Grid :=
  clearBorders h w (fun i j => g i j && !(thinCond1 h w g i j))

/-- Second subiteration: remove the `m2` pixels, then clear borders. -/
def thinSub2 (h w : Nat) (g : Grid) : Grid :=
  clearBorders h w (fun i j => g i j && !(thinCond2 h w g i j))

/-- One iteration of the thinning `while` loop: subiteration 1, border
clear, subiteration 2, border clear; the flag records whether any pixel
was removed (`np.any(m1)`, `np.any(m2)`). -/
def thinIter (h w : Nat) (g : Grid) : Grid × Bool :=
  (thinSub2 h w (thinSub1 h w g),
    anyCell h w (thinCond1 h w g) || anyCell h w (thinCond2 h w (thinSub1 h w g)))

/-- The `while changed and it < max_iter` loop; returns the final image
and the number of executed iterations. -/
def zsLoop (h w : Nat) : Nat → Grid → Grid × Nat
  | 0, g => (g, 0)
  | n + 1, g =>
    let r := thinIter h w g
    if r.2 then
      let s := zsLoop h w n r.1
      (s.1, s.2 + 1)
    else (r.1, 1)

/-- `_zhang_suen_thin(mask, max_iter)` together with its iteration count. -/
def zhang_suen_run (h w : Nat) (mask : Grid) (max_iter : Int) : Grid × Nat :=
  zsLoop h w max_iter.toNat (clearBorders h w mask)

/-- `_zhang_suen_thin(mask, max_iter)`. -/
def zhang_suen_thin (h w : Nat) (mask : Grid) (max_iter : Int) : Grid :=
  (zhang_suen_run h w mask max_iter).1

/-- Offsets of the eight neighbors of a cell. -/
def offsets8 : List (Int × Int) :=
  [(-1, -1), (-1, 0), (-1, 1), (0, -1), (0, 1), (1, -1), (1, 0), (1, 1)]

/-- Some 8-neighbor of `(i, j)` is true in `g`. -/
def hasTrueNbr8 (g : Grid) (i j : Int) : Bool :=
  offsets8.any (fun o => g (i + o.1) (j + o.2))

/-! ### RDP simplification (`rdp_simplify`, `_perp_dist`) -/

/-- `_perp_dist(p, a, b)`: distance from `p` to the segment `a`–`b`; the
projection parameter `t` is computed exactly and clamped to `[0, 1]`, the
final Euclidean distance is taken by the abstract `d`. -/
def perp_dist (d : Point → Point → ℚ) (p a b : Point) : ℚ :=
  let dx := b.1 - a.1
  let dy := b.2 - a.2
  if dx = 0 ∧ dy = 0 then d p a
  else
    let t0 := ((p.1 - a.1) * dx + (p.2 - a.2) * dy) / (dx * dx + dy * dy)
    let t : ℚ := if t0 < 0 then 0 else if t0 > 1 then 1 else t0
    d p (a.1 + t * dx, a.2 + t * dy)

/-- The `for i in range(a+1, b)` scan of `rec`: the running maximum
deviation (initially `-1.0`) and the index of the first strict maximum
(`-1` becomes `none`). -/
def findMax (d : Point → Point → ℚ) (pts : List Point) (a b : Nat) :
    ℚ × Option Nat :=
  (List.range' (a + 1) (b - a - 1)).foldl
    (fun s i =>
      let dd := perp_dist d (pts.getD i (0, 0)) (pts.getD a (0, 0)) (pts.getD b (0, 0))
      if dd > s.1 then (dd, some i) else s)
    (-1, none)

theorem findMax_state_some (d : Point → Point → ℚ) (pts : List Point) (a b : Nat) :
    ∀ (l : List Nat) (s : ℚ × Option Nat) (k : Nat), s.2 = some k →
      ∃ k', (l.foldl
        (fun s i =>
          let dd := perp_dist d (pts.getD i (0, 0)) (pts.getD a (0, 0)) (pts.getD b (0, 0))
          if dd > s.1 then (dd, some i) else s) s).2 = some k' := by
  intro l
  induction l with
  | nil => intro s k hs; exact ⟨k, hs⟩
  | cons x xs ih =>
      intro s k hs
      simp only [List.foldl_cons]
      by_cases hc : perp_dist d (pts.getD x (0, 0)) (pts.getD a (0, 0))
          (pts.getD b (0, 0)) > s.1
      · simp only [hc, if_pos]
        exact ih _ x rfl
      · simp only [hc, if_neg, if_false]
        exact ih s k hs

theorem findMax_some_mem (d : Point → Point → ℚ) (pts : List Point) (a b : Nat) :
    ∀ (l : List Nat) (s : ℚ × Option Nat) (idx : Nat),
      (l.foldl
        (fun s i =>
          let dd := perp_dist d (pts.getD i (0, 0)) (pts.getD a (0, 0)) (pts.getD b (0, 0))
          if dd > s.1 then (dd, some i) else s) s).2 = some idx →
      s.2 = some idx ∨ idx ∈ l := by
  intro l
  induction l with
  | nil => intro s idx hs; exact Or.inl hs
  | cons x xs ih =>
      intro s idx hs
      simp only [List.foldl_cons] at hs
      by_cases hc : perp_dist d (pts.getD x (0, 0)) (pts.getD a (0, 0))
          (pts.getD b (0, 0)) > s.1
      · simp only [hc, if_pos] at hs
        rcases ih _ idx hs with h | h
        · simp only at h
          exact Or.inr (by simp [Option.some_inj.1 h])
        · exact Or.inr (List.mem_cons_of_mem _ h)
      · simp only [hc, if_neg, if_false] at hs
        rcases ih s idx hs with h | h
        · exact Or.inl h
        · exact Or.inr (List.mem_cons_of_mem _ h)

theorem findMax_some_bounds (d : Point → Point → ℚ) (pts : List Point)
    (a b : Nat) {m : ℚ} {idx : Nat}
    (hfm : findMax d pts a b = (m, some idx)) : a < idx ∧ idx < b := by
  have h2 : (findMax d pts a b).2 = some idx := by rw [hfm]
  unfold findMax at h2
  rcases findMax_some_mem d pts a b _ _ idx h2 with h | h
  · exact absurd h (by simp)
  · have := List.mem_range'_1.1 h
    omega

/-- The recursive `rec(a, b, keep)` of `rdp_simplify`: if the maximal
deviation over the open index interval exceeds `eps`, keep that index and
recurse on both halves. -/
def rdpRec (d : Point → Point → ℚ) (pts : List Point) (eps : ℚ) :
    (a b : Nat) → (Nat → Bool) → (Nat → Bool)
  | a, b, keep =>
    match hfm : findMax d pts a b with
    | (_, none) => keep
    | (m, some idx) =>
      if m > eps then
        rdpRec d pts eps idx b
          (rdpRec d pts eps a idx (fun j => if j = idx then true else keep j))
      else keep
termination_by a b _ => b - a
decreasing_by
  · have := findMax_some_bounds d pts a b hfm
    omega
  · have := findMax_some_bounds d pts a b hfm
    omega

/-- The final `keep` array of `rdp_simplify(pts, eps)` (endpoints
pre-marked, then `rec(0, len(pts)-1)`). -/
def rdpKeep (d : Point → Point → ℚ) (pts : List Point) (eps : ℚ) : Nat → Bool :=
  rdpRec d pts eps 0 (pts.length - 1)
    (fun j => j == 0 || j == pts.length - 1)

/-- `[p for p, k in zip(pts, keep) if k]`, with `k` tracking the index. -/
def extractKeep (keep : Nat → Bool) : Nat → List Point → List Point
  | _, [] => []
  | k, p :: rest =>
      if keep k then p :: extractKeep keep (k + 1) rest
      else extractKeep keep (k + 1) rest

/-- `rdp_simplify(pts, eps)`. -/
def rdp_simplify (d : Point → Point → ℚ) (pts : List Point) (eps : ℚ) :
    List Point :=
  if eps ≤ 0 ∨ pts.length < 3 then pts
  else extractKeep (rdpKeep d pts eps) 0 pts

/-! ### Path tracing (`_trace_skeleton_to_strokes`,
`_trace_skeleton_to_single_stroke`) -/

/-- A pixel coordinate `(row, col)`. -/
abbrev Cell : Type := Int × Int

/-- `list(zip(*np.where(p)))`: the in-bounds cells satisfying `p`, in
row-major order. -/
def rowMajorCells (h w : Nat) (p : Int → Int → Bool) : List Cell :=
  ((List.range h).map (fun (i : Nat) =>
    ((List.range w).filter (fun (j : Nat) => p (i : Int) (j : Int))).map
      (fun (j : Nat) => ((i : Int), (j : Int))))).flatten

/-- `nbrs(r, c)`: the in-bounds true 8-neighbors of a cell, in the
source's `dr`-major scan order. -/
def nbrsList (h w : Nat) (skel : Grid) (r c : Int) : List Cell :=
  offsets8.filterMap (fun o =>
    if inB h w (r + o.1) (c + o.2) && skel (r + o.1) (c + o.2) then
      some (r + o.1, c + o.2)
    else none)

/-- `_skeleton_degrees`: per-pixel live-neighbor count through the
`np.roll` wrap-around reads, zeroed off the skeleton. -/
def skeleton_degrees (h w : Nat) (skel : Grid) (i j : Int) : Nat :=
  if skel i j then
    (offsets8.map (fun o =>
      b01 (skel ((i - o.1) % (h : Int)) ((j - o.2) % (w : Int))))).sum
  else 0

/-- `to_mm`: pixel center to clamped millimeter coordinates. -/
def to_mm (pixel_mm width_mm height_mm : ℚ) (r c : Int) : Point :=
  (max 0 (min width_mm (((c : ℚ) + 1/2) * pixel_mm)),
    max 0 (min height_mm (((r : ℚ) + 1/2) * pixel_mm)))

/-- Mark a cell as visited. -/
def setCell (g : Grid) (p : Cell) : Grid :=
  fun i j => if i = p.1 ∧ j = p.2 then true else g i j

/-- Accumulated polyline length `sum(_dist(pts[i-1], pts[i]))`. -/
def polylineLen (d : Point → Point → ℚ) : List Point → ℚ
  | x :: y :: rest => d x y + polylineLen d (y :: rest)
  | _ => 0

/-- The `while True` body of `walk`: follow unvisited neighbors through
degree-2 pixels; returns the appended path tail and the updated visited
grid. Fuel bounds the iteration count (each non-final iteration marks a
fresh pixel visited). -/
def walkLoop (h w : Nat) (skel : Grid) (deg : Int → Int → Nat) (start : Cell) :
    Nat → Grid → Option Cell → Cell → List Cell × Grid
  | 0, visited, _, _ => ([], visited)
  | fuel + 1, visited, prev, cur =>
      let n := nbrsList h w skel cur.1 cur.2
      if prev ≠ none ∧ deg cur.1 cur.2 ≠ 2 then ([], visited)
      else
        let nxt :=
          match n.find? (fun cand =>
            (match prev with | some p => decide (cand ≠ p) | none => true) &&
              !visited cand.1 cand.2) with
          | some x => some x
          | none => n.find? (fun cand =>
              match prev with | some p => decide (cand ≠ p) | none => true)
        match nxt with
        | none => ([], visited)
        | some nxt =>
            if visited nxt.1 nxt.2 then
              (if nxt = start then [nxt] else [], visited)
            else
              let res := walkLoop h w skel deg start fuel
                (setCell visited nxt) (some cur) nxt
              (nxt :: res.1, res.2)

/-- `walk(start)`: the traced pixel path and the updated visited grid. -/
def walk (h w : Nat) (skel : Grid) (deg : Int → Int → Nat) (start : Cell)
    (visited : Grid) : List Cell × Grid :=
  let res := walkLoop h w skel deg start (h * w + 1) (setCell visited start)
    none start
  (start :: res.1, res.2)

/-- One seeding step of `_trace_skeleton_to_strokes`: skip visited seeds,
otherwise walk and keep the path when it has at least 2 pixels. -/
def traceWalkStep (h w : Nat) (skel : Grid) (deg : Int → Int → Nat)
    (acc : List (List Cell) × Grid) (p : Cell) : List (List Cell) × Grid :=
  if acc.2 p.1 p.2 then acc
  else
    let res := walk h w skel deg p acc.2
    (if 2 ≤ res.1.length then acc.1 ++ [res.1] else acc.1, res.2)

/-- The two seeding loops of `_trace_skeleton_to_strokes`: walks from
unvisited endpoints, then from leftover unvisited pixels; paths shorter
than 2 pixels are discarded. -/
def traceSegmentPix (h w : Nat) (skel : Grid) : List (List Cell) :=
  let deg := skeleton_degrees h w skel
  let endpoints := rowMajorCells h w (fun i j => skel i j && (deg i j == 1))
  let acc1 := endpoints.foldl (traceWalkStep h w skel deg) ([], fun _ _ => false)
  let remaining := rowMajorCells h w (fun i j => skel i j && !(acc1.2 i j))
  (remaining.foldl (traceWalkStep h w skel deg) acc1).1

/-- `_trace_skeleton_to_strokes`: convert pixel paths to millimeter
strokes and drop those shorter than `min_stroke_mm`. -/
def trace_skeleton_to_strokes (d : Point → Point → ℚ) (h w : Nat) (skel : Grid)
    (pixel_mm width_mm height_mm min_stroke_mm : ℚ) : List Stroke :=
  (traceSegmentPix h w skel).filterMap (fun pix =>
    let pts := pix.map (fun rc => to_mm pixel_mm width_mm height_mm rc.1 rc.2)
    if polylineLen d pts < min_stroke_mm then none else some ⟨pts⟩)

/-- An undirected pixel edge stored with its endpoints sorted. -/
abbrev EdgeKey : Type := Cell × Cell

/-- Python tuple `<=` on pixel coordinates. -/
def pairLe (a b : Cell) : Bool :=
  decide (a.1 < b.1) || (decide (a.1 = b.1) && decide (a.2 ≤ b.2))

/-- `edge_key(a, b)`: the sorted pair. -/
def edge_key (a b : Cell) : EdgeKey := if pairLe a b then (a, b) else (b, a)

/-- The undirected edge set of the skeleton's 8-neighbor graph. -/
def skelEdges (h w : Nat) (skel : Grid) : Finset EdgeKey :=
  (rowMajorCells h w skel).foldl
    (fun s a => (nbrsList h w skel a.1 a.2).foldl
      (fun s b => insert (edge_key a b) s) s) ∅

/-- `has_remaining_edge(a)`. -/
def hasRemainingEdge (h w : Nat) (skel : Grid) (edges : Finset EdgeKey)
    (a : Cell) : Bool :=
  (nbrsList h w skel a.1 a.2).any (fun b => decide (edge_key a b ∈ edges))

/-- `remaining_nodes()`: nodes (in insertion order) still holding an
unused incident edge. -/
def remainingNodes (h w : Nat) (skel : Grid) (nodes : List Cell)
    (edges : Finset EdgeKey) : List Cell :=
  nodes.filter (hasRemainingEdge h w skel edges)

/-- `pick_start()`: an endpoint (exactly one unused edge) if any, else
the first remaining node. -/
def pickStart (h w : Nat) (skel : Grid) (nodes : List Cell)
    (edges : Finset EdgeKey) : Option Cell :=
  match remainingNodes h w skel nodes edges with
  | [] => none
  | c :: cs =>
      match (c :: cs).filter (fun a =>
        (nbrsList h w skel a.1 a.2).countP
          (fun b => decide (edge_key a b ∈ edges)) == 1) with
      | e :: _ => some e
      | [] => some c

/-- Squared pixel distance used by `nearest_node`. -/
def cellSqDist (a b : Cell) : Int :=
  (a.1 - b.1) * (a.1 - b.1) + (a.2 - b.2) * (a.2 - b.2)

/-- `nearest_node(a, candidates)` (first strict minimum). -/
def nearestNode (a : Cell) : List Cell → Cell
  | [] => a
  | c :: cs => cs.foldl
      (fun best cand => if cellSqDist a cand < cellSqDist a best then cand
        else best) c

/-- First unused incident edge's far endpoint, if any. -/
def findEdgeNbr (h w : Nat) (skel : Grid) (edges : Finset EdgeKey)
    (cur : Cell) : Option Cell :=
  (nbrsList h w skel cur.1 cur.2).find? (fun b => decide (edge_key cur b ∈ edges))

/-- The `while edges` loop of the single-walk tracer: consume one unused
incident edge per step, or jump to the nearest node still holding one.
Fuel `2·|edges| + 2` dominates the iteration count. -/
def singleWalkLoop (h w : Nat) (skel : Grid) (nodes : List Cell) :
    Nat → Finset EdgeKey → Cell → List Cell
  | 0, _, _ => []
  | fuel + 1, edges, cur =>
      if edges = ∅ then []
      else if ¬ hasRemainingEdge h w skel edges cur then
        match remainingNodes h w skel nodes edges with
        | [] => []
        | c :: cs =>
            let nxt := nearestNode cur (c :: cs)
            nxt :: singleWalkLoop h w skel nodes fuel edges nxt
      else
        match findEdgeNbr h w skel edges cur with
        | some nxt =>
            nxt :: singleWalkLoop h w skel nodes fuel
              (edges.erase (edge_key cur nxt)) nxt
        | none =>
            match remainingNodes h w skel nodes edges with
            | [] => []
            | c :: cs =>
                let nxt := nearestNode cur (c :: cs)
                nxt :: singleWalkLoop h w skel nodes fuel edges nxt

/-- `# Remove immediate duplicates` over the tail, given the last kept
element. -/
def dedupAdj : Cell → List Cell → List Cell
  | _, [] => []
  | x, y :: t => if y = x then dedupAdj x t else y :: dedupAdj y t

/-- `_trace_skeleton_to_single_stroke`. -/
def trace_skeleton_to_single_stroke (h w : Nat) (skel : Grid)
    (pixel_mm width_mm height_mm : ℚ) : List Stroke :=
  let nodes := rowMajorCells h w skel
  if nodes = [] then []
  else
    let edges := skelEdges h w skel
    match pickStart h w skel nodes edges with
    | none => []
    | some start =>
        let tail := singleWalkLoop h w skel nodes (2 * edges.card + 2) edges start
        let dedup := start :: dedupAdj start tail
        [⟨dedup.map (fun rc => to_mm pixel_mm width_mm height_mm rc.1 rc.2)⟩]

/-! ### Chamfer distance, ridge skeleton and the pipeline -/

/-- Point update of an integer grid. -/
def setIntCell (g : Int → Int → Int) (r c v : Int) : Int → Int → Int :=
  fun i j => if i = r ∧ j = c then v else g i j

/-- `dist` initialisation: `inf` on foreground, `0` on background. -/
def chamferInit (mask : Grid) : Int → Int → Int :=
  fun i j => if mask i j then 1000000000 else 0

/-- Forward-pass cell update of `_distance_transform_chamfer`. -/
def chamferFwdCell (w : Nat) (mask : Grid) (g : Int → Int → Int)
    (r c : Int) : Int → Int → Int :=
  if mask r c then
    let d0 := g r c
    let d1 := if 0 < r then min d0 (g (r - 1) c + 3) else d0
    let d2 := if 0 < r ∧ 0 < c then min d1 (g (r - 1) (c - 1) + 4) else d1
    let d3 := if 0 < r ∧ c + 1 < (w : Int) then min d2 (g (r - 1) (c + 1) + 4) else d2
    let d4 := if 0 < c then min d3 (g r (c - 1) + 3) else d3
    setIntCell g r c d4
  else g

/-- Backward-pass cell update of `_distance_transform_chamfer`. -/
def chamferBwdCell (h w : Nat) (mask : Grid) (g : Int → Int → Int)
    (r c : Int) : Int → Int → Int :=
  if mask r c then
    let d0 := g r c
    let d1 := if r + 1 < (h : Int) then min d0 (g (r + 1) c + 3) else d0
    let d2 := if r + 1 < (h : Int) ∧ 0 < c then min d1 (g (r + 1) (c - 1) + 4) else d1
    let d3 := if r + 1 < (h : Int) ∧ c + 1 < (w : Int) then
        min d2 (g (r + 1) (c + 1) + 4) else d2
    let d4 := if c + 1 < (w : Int) then min d3 (g r (c + 1) + 3) else d3
    setIntCell g r c d4
  else g

/-- `_distance_transform_chamfer(mask)`: one forward and one backward
raster pass with weights 3 (axis) / 4 (diagonal). -/
def distance_transform_chamfer (h w : Nat) (mask : Grid) : Int → Int → Int :=
  let fwd := (List.range h).foldl
    (fun g (r : Nat) => (List.range w).foldl
      (fun g (c : Nat) => chamferFwdCell w mask g (r : Int) (c : Int)) g)
    (chamferInit mask)
  (List.range h).reverse.foldl
    (fun g (r : Nat) => (List.range w).reverse.foldl
      (fun g (c : Nat) => chamferBwdCell h w mask g (r : Int) (c : Int)) g)
    fwd

/-- The 3×3 window offsets (center included, as `local.max()` is). -/
def offsets9 : List (Int × Int) := (0, 0) :: offsets8

/-- `_ridge_skeleton_from_dist`: interior foreground pixels with nonzero
distance that dominate their 3×3 window. -/
def ridge_skeleton_from_dist (h w : Nat) (mask : Grid)
    (dist : Int → Int → Int) : Grid :=
  fun i j =>
    decide (1 ≤ i) && decide (i ≤ (h : Int) - 2) &&
    decide (1 ≤ j) && decide (j ≤ (w : Int) - 2) &&
    mask i j && decide (dist i j ≠ 0) &&
    offsets9.all (fun o => decide (dist (i + o.1) (j + o.2) ≤ dist i j))

/-- The skeletonizer selector (`skeleton_method`). -/
inductive SkelMethod where
  | thinning : SkelMethod
  | ridge : SkelMethod
deriving DecidableEq

/-- The tracing-policy selector (`trace_mode`). -/
inductive TraceMode where
  | walkMode : TraceMode
  | segment : TraceMode
deriving DecidableEq

/-- Terminal pipeline failures of `text_to_centerline_strokes_mm`. -/
inductive PipelineError where
  | EmptyRaster : PipelineError
  | SkeletonCollapse : PipelineError
  | NoUsableStrokes : PipelineError
deriving DecidableEq

/-- The optional closing followed by the selected skeletonizer, as in the
body of `text_to_centerline_strokes_mm` (the mask is the one checked for
emptiness, i.e. before closing). -/
def pipelineSkeleton (h w : Nat) (mask : Grid) (close_mm raster_mm : ℚ)
    (thin_max_iter : Int) (method : SkelMethod) : Grid :=
  let mask1 :=
    if 0 < close_mm then
      let radius : Int := ⌈close_mm / raster_mm⌉
      if 0 < radius then binary_close h w radius mask else mask
    else mask
  match method with
  | .ridge =>
      let dist := distance_transform_chamfer h w mask1
      let sk := ridge_skeleton_from_dist h w mask1 dist
      if 0 < thin_max_iter then zhang_suen_thin h w sk thin_max_iter else sk
  | .thinning => zhang_suen_thin h w mask1 thin_max_iter

/-- The tracing stage under the selected policy. -/
def pipelineTrace (d : Point → Point → ℚ) (h w : Nat) (skel : Grid)
    (raster_mm width_mm height_mm min_stroke_mm : ℚ) (mode : TraceMode) :
    List Stroke :=
  match mode with
  | .walkMode => trace_skeleton_to_single_stroke h w skel raster_mm width_mm height_mm
  | .segment =>
      trace_skeleton_to_strokes d h w skel raster_mm width_mm height_mm min_stroke_mm

/-- Outcome of one pipeline invocation: a raised `RuntimeError` or the
returned stroke list. -/
inductive PipelineResult where
  | err : PipelineError → PipelineResult
  | ok : List Stroke → PipelineResult
deriving DecidableEq

/-- `text_to_centerline_strokes_mm` from the rasterized mask on: the three
`RuntimeError`s become the constructors of `PipelineError`; the upstream
text-to-outline and rasterization stages are out of scope, so the mask is
the input. -/
def text_to_centerline_strokes_mm (d : Point → Point → ℚ) (h w : Nat)
    (mask : Grid) (width_mm height_mm raster_mm close_mm min_stroke_mm : ℚ)
    (thin_max_iter : Int) (method : SkelMethod) (mode : TraceMode) :
    PipelineResult :=
  if gridCount h w mask = 0 then .err .EmptyRaster
  else
    let skel := pipelineSkeleton h w mask close_mm raster_mm thin_max_iter method
    if gridCount h w skel = 0 then .err .SkeletonCollapse
    else
      let strokes := pipelineTrace d h w skel raster_mm width_mm height_mm
        min_stroke_mm mode
      if strokes = [] then .err .NoUsableStrokes
      else .ok strokes

/-! ### Route planning (`reorder_strokes_lr`, `reorder_strokes_tlbr`) -/

/-- `stroke_bbox_x(st)`: min and max x over the stroke's points. -/
def stroke_bbox_x (st : Stroke) : ℚ × ℚ :=
  (((st.pts.map Prod.fst).min?).getD 0, ((st.pts.map Prod.fst).max?).getD 0)

/-- `stroke_bbox_y(st)`: min and max y over the stroke's points. -/
def stroke_bbox_y (st : Stroke) : ℚ × ℚ :=
  (((st.pts.map Prod.snd).min?).getD 0, ((st.pts.map Prod.snd).max?).getD 0)

/-- `stroke_endpoints(st) = (st.pts[0], st.pts[-1])`. -/
def stroke_endpoints (st : Stroke) : Point × Point :=
  (st.pts.headD (0, 0), st.pts.getLastD (0, 0))

/-- The inner `for i, st in enumerate(remaining)` scan: running best
`(cost, index, reversed)` starting from `(1e18, -1, False)`; both
endpoints of each stroke are tried with strict `<` updates. -/
def bestChoice (f : Point → Stroke → ℚ × ℚ) (cur_pt : Point)
    (rem : List Stroke) : ℚ × Int × Bool :=
  rem.enum.foldl
    (fun s x =>
      let costs := f cur_pt x.2
      let s1 := if costs.1 < s.1 then (costs.1, ((x.1 : Int), false)) else s
      let s2 := if costs.2 < s1.1 then (costs.2, ((x.1 : Int), true)) else s1
      s2)
    (1000000000000000000, -1, false)

/-- `remaining.pop(i)`: element at `i` and the shortened list; a negative
index (only `-1` is reachable) pops the last element. -/
def popIdx (l : List Stroke) (i : Int) : Stroke × List Stroke :=
  if h : 0 ≤ i ∧ i.toNat < l.length then
    (l.get ⟨i.toNat, h.2⟩, l.eraseIdx i.toNat)
  else (l.getLastD ⟨[]⟩, l.dropLast)

theorem popIdx_length (l : List Stroke) (i : Int) (hl : l ≠ []) :
    (popIdx l i).2.length = l.length - 1 := by
  unfold popIdx
  by_cases h : 0 ≤ i ∧ i.toNat < l.length
  · rw [dif_pos h]
    show (l.eraseIdx i.toNat).length = l.length - 1
    have := List.length_eraseIdx_add_one h.2
    omega
  · rw [dif_neg h]
    exact List.length_dropLast l

theorem popIdx_perm (l : List Stroke) (i : Int) (hl : l ≠ []) :
    l.Perm ((popIdx l i).1 :: (popIdx l i).2) := by
  unfold popIdx
  by_cases h : 0 ≤ i ∧ i.toNat < l.length
  · rw [dif_pos h]
    refine (List.perm_cons_erase (l.get_mem i.toNat h.2)).trans ?_
    exact List.Perm.cons _ (List.erase_getElem h.2)
  · rw [dif_neg h]
    have hsplit : l.dropLast ++ [l.getLastD ⟨[]⟩] = l := by
      cases l with
      | nil => exact absurd rfl hl
      | cons x xs =>
          rw [List.getLastD_eq_getLast?, List.getLast?_eq_getLast _ (by simp)]
          simp [List.dropLast_append_getLast]
    have hp := List.perm_append_singleton (l.getLastD ⟨[]⟩) l.dropLast
    rw [hsplit] at hp
    exact hp

/-- The greedy `while remaining` loop shared by both reorderers: `f`
yields the costs of entering a stroke at its two endpoints. -/
def reorderLoop (f : Point → Stroke → ℚ × ℚ) : List Stroke → Point → List Stroke
  | [], _ => []
  | st :: rest, cur_pt =>
      let ch := bestChoice f cur_pt (st :: rest)
      let pr := popIdx (st :: rest) ch.2.1
      let nxt := if ch.2.2 then Stroke.mk pr.1.pts.reverse else pr.1
      nxt :: reorderLoop f pr.2 (nxt.pts.getLastD (0, 0))
termination_by rem _ => rem.length
decreasing_by
  have := popIdx_length (st :: rest) (bestChoice f cur_pt (st :: rest)).2.1 (by simp)
  simp only [this]
  simp [List.length_cons]

/-- `reorder_strokes_lr(strokes, lr_penalty)`: sort by leftmost x, then
greedy nearest-next with a leftward-movement penalty. -/
def reorder_strokes_lr (d : Point → Point → ℚ) (lr_penalty : ℚ)
    (strokes : List Stroke) : List Stroke :=
  if strokes = [] then strokes
  else
    match List.insertionSort
        (fun s t => (stroke_bbox_x s).1 ≤ (stroke_bbox_x t).1) strokes with
    | [] => []
    | cur :: rest =>
        cur :: reorderLoop
          (fun cp st =>
            (d cp (stroke_endpoints st).1 +
                lr_penalty * max 0 (cp.1 - (stroke_endpoints st).1.1),
              d cp (stroke_endpoints st).2 +
                lr_penalty * max 0 (cp.1 - (stroke_endpoints st).2.1)))
          rest (cur.pts.getLastD (0, 0))

/-- `reorder_strokes_tlbr(strokes, up_penalty, left_penalty)`: sort by
(top, left), then greedy nearest-next with upward/leftward penalties. -/
def reorder_strokes_tlbr (d : Point → Point → ℚ) (up_penalty left_penalty : ℚ)
    (strokes : List Stroke) : List Stroke :=
  if strokes = [] then strokes
  else
    match List.insertionSort
        (fun s t => -(stroke_bbox_y s).2 < -(stroke_bbox_y t).2 ∨
          (-(stroke_bbox_y s).2 = -(stroke_bbox_y t).2 ∧
            (stroke_bbox_x s).1 ≤ (stroke_bbox_x t).1)) strokes with
    | [] => []
    | cur :: rest =>
        cur :: reorderLoop
          (fun cp st =>
            (d cp (stroke_endpoints st).1 +
                left_penalty * max 0 (cp.1 - (stroke_endpoints st).1.1) +
                up_penalty * max 0 (cp.2 - (stroke_endpoints st).1.2),
              d cp (stroke_endpoints st).2 +
                left_penalty * max 0 (cp.1 - (stroke_endpoints st).2.1) +
                up_penalty * max 0 (cp.2 - (stroke_endpoints st).2.2)))
          rest (cur.pts.getLastD (0, 0))

/-- A stroke equals another up to reversal of its point sequence. -/
def UpToRev (s t : Stroke) : Prop := t = s ∨ t.pts = s.pts.reverse

/-! ### Theorems -/

theorem stitchGo_eq_bridgeGo (d : Point → Point → ℚ) (t : ℚ) :
    ∀ (rest : List Stroke) (cur : List Point),
      stitchGo d t cur rest = bridgeGo d t cur rest := by
  intro rest
  induction rest with
  | nil => intro cur; rfl
  | cons st rest ih =>
      intro cur
      simp only [stitchGo, bridgeGo]
      by_cases h1 : d (cur.getLastD (0, 0)) (st.pts.headD (0, 0)) ≤ t
      · rw [if_pos h1, if_pos h1]
        by_cases h2 : d (cur.getLastD (0, 0)) (st.pts.headD (0, 0)) > 1 / 1000000000
        · rw [if_pos h2, if_pos h2, ih]
        · rw [if_neg h2, if_neg h2, ih]
      · rw [if_neg h1, if_neg h1, ih]

/-- C10: stitching and bridging are extensionally the same operation: for
every distance function, stroke list and threshold, `stitch_strokes` and
`bridge_strokes` return equal stroke lists. -/
theorem stitch_strokes_eq_bridge_strokes (d : Point → Point → ℚ)
    (strokes : List Stroke) (t : ℚ) :
    stitch_strokes d strokes t = bridge_strokes d strokes t := by
  unfold stitch_strokes bridge_strokes
  by_cases h : t ≤ 0 ∨ strokes = []
  · rw [if_pos h, if_pos h]
  · rw [if_neg h, if_neg h, stitchGo_eq_bridgeGo]

theorem chaikinStep_ne_nil {pts : List Point} (h : pts ≠ []) :
    chaikinStep pts ≠ [] := by
  match pts with
  | [] => exact absurd rfl h
  | p :: rest => simp [chaikinStep]

theorem chaikinStep_head? (pts : List Point) :
    (chaikinStep pts).head? = pts.head? := by
  match pts with
  | [] => rfl
  | p :: rest => rfl

theorem chaikinStep_getLast? (pts : List Point) :
    (chaikinStep pts).getLast? = pts.getLast? := by
  match pts with
  | [] => rfl
  | p :: rest =>
      show (p :: (chaikinPairs (p :: rest) ++ [(p :: rest).getLast (by simp)])).getLast?
          = (p :: rest).getLast?
      rw [show p :: (chaikinPairs (p :: rest) ++ [(p :: rest).getLast (by simp)])
            = (p :: chaikinPairs (p :: rest)) ++ [(p :: rest).getLast (by simp)] from rfl]
      rw [List.getLast?_concat]
      rw [List.getLast?_eq_getLast _ (by simp)]

theorem chaikinIter_head?_getLast? (n : Nat) (pts : List Point) :
    (chaikinStep^[n] pts).head? = pts.head? ∧
      (chaikinStep^[n] pts).getLast? = pts.getLast? := by
  induction n with
  | zero => exact ⟨rfl, rfl⟩
  | succ n ih =>
      rw [Function.iterate_succ_apply']
      exact ⟨(chaikinStep_head? _).trans ih.1, (chaikinStep_getLast? _).trans ih.2⟩

/-- C7: `chaikin_smooth` preserves the first and last point of the input
exactly, for every point list and every iteration count. -/
theorem chaikin_smooth_preserves_endpoints (pts : List Point) (iters : Int) :
    (chaikin_smooth pts iters).head? = pts.head? ∧
      (chaikin_smooth pts iters).getLast? = pts.getLast? := by
  unfold chaikin_smooth
  by_cases h : iters ≤ 0 ∨ pts.length < 3
  · rw [if_pos h]; exact ⟨rfl, rfl⟩
  · rw [if_neg h]; exact chaikinIter_head?_getLast? _ pts

theorem mem_offRange {r : Nat} {x : Int} :
    x ∈ offRange r ↔ -(r : Int) ≤ x ∧ x ≤ r := by
  constructor
  · intro hx
    unfold offRange at hx
    obtain ⟨k, hk, hkx⟩ := List.mem_map.1 hx
    have hk' := List.mem_range.1 hk
    omega
  · intro hx
    unfold offRange
    exact List.mem_map.2 ⟨(x + r).toNat, List.mem_range.2 (by omega), by omega⟩

theorem binary_dilate_eq_true_iff (h w : Nat) {r : Int} (hr : ¬ r ≤ 0)
    (m : Grid) (i j : Int) :
    binary_dilate h w r m i j = true ↔
      inB h w i j = true ∧
        ∃ dr dc : Int,
          (-(r.toNat : Int) ≤ dr ∧ dr ≤ r.toNat) ∧
          (-(r.toNat : Int) ≤ dc ∧ dc ≤ r.toNat) ∧
          inB h w (i + dr) (j + dc) = true ∧ m (i + dr) (j + dc) = true := by
  simp only [binary_dilate, if_neg hr, Bool.and_eq_true, List.any_eq_true]
  constructor
  · rintro ⟨hij, dr, hdr, dc, hdc, h1, h2⟩
    exact ⟨hij, dr, dc, mem_offRange.1 hdr, mem_offRange.1 hdc, h1, h2⟩
  · rintro ⟨hij, dr, dc, hdr, hdc, h1, h2⟩
    exact ⟨hij, dr, mem_offRange.2 hdr, dc, mem_offRange.2 hdc, h1, h2⟩

theorem gridCompl_anti (h w : Nat) {a b : Grid}
    (hab : ∀ i j, a i j = true → b i j = true) :
    ∀ i j, gridCompl h w b i j = true → gridCompl h w a i j = true := by
  intro i j hb
  simp only [gridCompl, Bool.and_eq_true, Bool.not_eq_true'] at hb ⊢
  refine ⟨hb.1, ?_⟩
  cases hx : a i j with
  | false => rfl
  | true => rw [hab i j hx] at hb; exact absurd hb.2 (by decide)

theorem binary_dilate_mono (h w : Nat) (r : Int) {a b : Grid}
    (hab : ∀ i j, a i j = true → b i j = true) :
    ∀ i j, binary_dilate h w r a i j = true → binary_dilate h w r b i j = true := by
  intro i j
  by_cases hr : r ≤ 0
  · simp only [binary_dilate, if_pos hr]; exact hab i j
  · rw [binary_dilate_eq_true_iff h w hr, binary_dilate_eq_true_iff h w hr]
    rintro ⟨hij, dr, dc, h1, h2, h3, h4⟩
    exact ⟨hij, dr, dc, h1, h2, h3, hab _ _ h4⟩

theorem binary_erode_mono (h w : Nat) (r : Int) {a b : Grid}
    (hab : ∀ i j, a i j = true → b i j = true) :
    ∀ i j, binary_erode h w r a i j = true → binary_erode h w r b i j = true := by
  by_cases hr : r ≤ 0
  · simp only [binary_erode, if_pos hr]; exact hab
  · simp only [binary_erode, if_neg hr]
    exact gridCompl_anti h w (binary_dilate_mono h w r (gridCompl_anti h w hab))

/-- Extensivity of closing: a foreground in-bounds cell stays foreground. -/
theorem binary_close_extensive (h w : Nat) (r : Int) (m : Grid) (i j : Int)
    (hij : inB h w i j = true) (hm : m i j = true) :
    binary_close h w r m i j = true := by
  by_cases hr : r ≤ 0
  · simp only [binary_close, if_pos hr]; exact hm
  · simp only [binary_close, if_neg hr, binary_erode, if_neg hr]
    simp only [gridCompl, Bool.and_eq_true, Bool.not_eq_true']
    refine ⟨hij, ?_⟩
    cases hdil : binary_dilate h w r
        (gridCompl h w (binary_dilate h w r m)) i j with
    | false => rfl
    | true =>
        exfalso
        rcases (binary_dilate_eq_true_iff h w hr _ i j).1 hdil with
          ⟨_, dr, dc, h1, h2, h3, h4⟩
        simp only [gridCompl, Bool.and_eq_true, Bool.not_eq_true'] at h4
        rcases h4 with ⟨h4a, h4b⟩
        have hdm : binary_dilate h w r m (i + dr) (j + dc) = true := by
          rw [binary_dilate_eq_true_iff h w hr]
          refine ⟨h4a, -dr, -dc, ⟨by omega, by omega⟩, ⟨by omega, by omega⟩, ?_, ?_⟩
          · rw [show i + dr + -dr = i by ring, show j + dc + -dc = j by ring]
            exact hij
          · rw [show i + dr + -dr = i by ring, show j + dc + -dc = j by ring]
            exact hm
        rw [hdm] at h4b
        exact Bool.noConfusion h4b

/-- Anti-extensivity of opening: `dilate (erode z) ⊆ z`. -/
theorem binary_dilate_erode_subset (h w : Nat) (r : Int) (z : Grid) (i j : Int)
    (hz : binary_dilate h w r (binary_erode h w r z) i j = true) :
    z i j = true := by
  by_cases hr : r ≤ 0
  · simpa only [binary_dilate, if_pos hr, binary_erode, if_pos hr] using hz
  · rcases (binary_dilate_eq_true_iff h w hr _ i j).1 hz with
      ⟨hij, dr, dc, h1, h2, h3, h4⟩
    simp only [binary_erode, if_neg hr] at h4
    simp only [gridCompl, Bool.and_eq_true, Bool.not_eq_true'] at h4
    rcases h4 with ⟨h4a, h4b⟩
    by_contra hzf
    simp only [Bool.not_eq_true] at hzf
    have hcon : binary_dilate h w r (gridCompl h w z) (i + dr) (j + dc) = true := by
      rw [binary_dilate_eq_true_iff h w hr]
      refine ⟨h4a, -dr, -dc, ⟨by omega, by omega⟩, ⟨by omega, by omega⟩, ?_, ?_⟩
      · rw [show i + dr + -dr = i by ring, show j + dc + -dc = j by ring]
        exact hij
      · rw [show i + dr + -dr = i by ring, show j + dc + -dc = j by ring]
        simp only [gridCompl, Bool.and_eq_true, Bool.not_eq_true']
        exact ⟨hij, hzf⟩
    rw [hcon] at h4b
    exact Bool.noConfusion h4b

theorem binary_close_inB (h w : Nat) {r : Int} (hr : ¬ r ≤ 0) (m : Grid)
    (i j : Int) (hc : binary_close h w r m i j = true) : inB h w i j = true := by
  simp only [binary_close, if_neg hr, binary_erode, if_neg hr, gridCompl,
    Bool.and_eq_true] at hc
  exact hc.1

/-- C5: morphological closing is idempotent — for every mask, radius and
cell, `close (close m) = close m`. -/
theorem binary_close_idempotent (h w : Nat) (r : Int) (m : Grid) (i j : Int) :
    binary_close h w r (binary_close h w r m) i j = binary_close h w r m i j := by
  by_cases hr : r ≤ 0
  · simp only [binary_close, if_pos hr]
  · have fwd : binary_close h w r (binary_close h w r m) i j = true →
        binary_close h w r m i j = true := by
      intro hc
      have hsub : ∀ i' j',
          binary_dilate h w r (binary_erode h w r (binary_dilate h w r m)) i' j' = true →
            binary_dilate h w r m i' j' = true :=
        fun i' j' => binary_dilate_erode_subset h w r _ i' j'
      simp only [binary_close, if_neg hr] at hc ⊢
      exact binary_erode_mono h w r hsub i j hc
    have bwd : binary_close h w r m i j = true →
        binary_close h w r (binary_close h w r m) i j = true := by
      intro hc
      exact binary_close_extensive h w r _ i j (binary_close_inB h w hr m i j hc) hc
    cases h1 : binary_close h w r (binary_close h w r m) i j with
    | true => exact (fwd h1).symm
    | false =>
        cases h2 : binary_close h w r m i j with
        | true => rw [bwd h2] at h1; exact Bool.noConfusion h1
        | false => rfl

/-- C8: for radius ≥ 1, a dilated pixel is true iff some in-bounds pixel
within Chebyshev distance `r` is true in the mask; erosion is the
complement of dilation of the complement; for radius ≤ 0 dilation,
erosion and closing all return the mask unchanged. -/
theorem morphology_spec (h w : Nat) (r : Int) (m : Grid) :
    (1 ≤ r → ∀ i j, inB h w i j = true →
      (binary_dilate h w r m i j = true ↔
        ∃ i' j' : Int, inB h w i' j' = true ∧
          max (i - i').natAbs (j - j').natAbs ≤ r.toNat ∧ m i' j' = true)) ∧
    (1 ≤ r →
      binary_erode h w r m = gridCompl h w (binary_dilate h w r (gridCompl h w m))) ∧
    (r ≤ 0 → binary_dilate h w r m = m ∧ binary_erode h w r m = m ∧
      binary_close h w r m = m) := by
  refine ⟨?_, ?_, ?_⟩
  · intro hr i j hij
    have hr' : ¬ r ≤ 0 := by omega
    rw [binary_dilate_eq_true_iff h w hr' m i j]
    constructor
    · rintro ⟨_, dr, dc, h1, h2, h3, h4⟩
      refine ⟨i + dr, j + dc, h3, ?_, h4⟩
      simp only [max_le_iff]
      constructor
      · have : (r.toNat : Int) = r := by omega
        omega
      · omega
    · rintro ⟨i', j', h1, h2, h3⟩
      simp only [max_le_iff] at h2
      refine ⟨hij, i' - i, j' - j, ⟨by omega, by omega⟩, ⟨by omega, by omega⟩, ?_, ?_⟩
      · rw [show i + (i' - i) = i' by ring, show j + (j' - j) = j' by ring]
        exact h1
      · rw [show i + (i' - i) = i' by ring, show j + (j' - j) = j' by ring]
        exact h3
  · intro hr
    have hr' : ¬ r ≤ 0 := by omega
    simp only [binary_erode, if_neg hr']
  · intro hr
    exact ⟨by simp only [binary_dilate, if_pos hr],
      by simp only [binary_erode, if_pos hr],
      by simp only [binary_close, if_pos hr]⟩

theorem clearBorders_subset (h w : Nat) (g : Grid) (i j : Int)
    (hc : clearBorders h w g i j = true) : g i j = true := by
  unfold clearBorders at hc
  by_cases hb : i = 0 ∨ i = (h : Int) - 1 ∨ j = 0 ∨ j = (w : Int) - 1
  · rw [if_pos hb] at hc; exact Bool.noConfusion hc
  · rwa [if_neg hb] at hc

theorem thinSub1_subset (h w : Nat) (g : Grid) (i j : Int)
    (ht : thinSub1 h w g i j = true) : g i j = true := by
  unfold thinSub1 at ht
  have h1 := clearBorders_subset h w _ i j ht
  rw [Bool.and_eq_true] at h1
  exact h1.1

theorem thinSub2_subset (h w : Nat) (g : Grid) (i j : Int)
    (ht : thinSub2 h w g i j = true) : g i j = true := by
  unfold thinSub2 at ht
  have h1 := clearBorders_subset h w _ i j ht
  rw [Bool.and_eq_true] at h1
  exact h1.1

theorem thinIter_subset (h w : Nat) (g : Grid) (i j : Int)
    (ht : (thinIter h w g).1 i j = true) : g i j = true :=
  thinSub1_subset h w g i j (thinSub2_subset h w _ i j ht)

theorem gridCount_mono (h w : Nat) {a b : Grid}
    (hab : ∀ i j, a i j = true → b i j = true) :
    gridCount h w a ≤ gridCount h w b := by
  unfold gridCount
  refine List.sum_le_sum ?_
  intro i _
  rw [← List.countP_eq_length_filter, ← List.countP_eq_length_filter]
  exact List.countP_mono_left (fun j _ hj => hab i j hj)

theorem zsLoop_iterations_le (h w : Nat) :
    ∀ (fuel : Nat) (g : Grid), (zsLoop h w fuel g).2 ≤ fuel := by
  intro fuel
  induction fuel with
  | zero => intro g; exact Nat.le_refl 0
  | succ n ih =>
      intro g
      unfold zsLoop
      by_cases hch : (thinIter h w g).2 = true
      · simp only [hch, if_pos]
        exact Nat.succ_le_succ (ih _)
      · simp only [Bool.not_eq_true] at hch
        simp only [hch, Bool.false_eq_true, if_false]
        omega

/-- C2: each iteration of the thinning loop only clears pixels, so the
foreground pixel count never increases from one iteration to the next,
and the loop executes at most `max_iter` iterations. -/
theorem zhang_suen_iteration_spec (h w : Nat) (g mask : Grid) (max_iter : Int) :
    (∀ i j, (thinIter h w g).1 i j = true → g i j = true) ∧
    gridCount h w (thinIter h w g).1 ≤ gridCount h w g ∧
    (zhang_suen_run h w mask max_iter).2 ≤ max_iter.toNat :=
  ⟨fun i j => thinIter_subset h w g i j,
    gridCount_mono h w (fun i j => thinIter_subset h w g i j),
    zsLoop_iterations_le h w max_iter.toNat _⟩

theorem zsLoop_subset (h w : Nat) :
    ∀ (fuel : Nat) (g : Grid) (i j : Int),
      (zsLoop h w fuel g).1 i j = true → g i j = true := by
  intro fuel
  induction fuel with
  | zero => intro g i j hg; exact hg
  | succ n ih =>
      intro g i j hg
      unfold zsLoop at hg
      by_cases hch : (thinIter h w g).2 = true
      · simp only [hch, if_pos] at hg
        exact thinIter_subset h w g i j (ih _ i j hg)
      · simp only [Bool.not_eq_true] at hch
        simp only [hch, Bool.false_eq_true, if_false] at hg
        exact thinIter_subset h w g i j hg

theorem pAt_interior (h w : Nat) (g : Grid) (i j di dj : Int)
    (h1 : 0 ≤ i + di) (h2 : i + di < (h : Int))
    (h3 : 0 ≤ j + dj) (h4 : j + dj < (w : Int)) :
    pAt h w g i j di dj = g (i + di) (j + dj) := by
  unfold pAt
  rw [Int.emod_eq_of_lt h1 h2, Int.emod_eq_of_lt h3 h4]

theorem nbrB_eq_zero (h w : Nat) (g : Grid) (i j : Int)
    (hi1 : 1 ≤ i) (hi2 : i ≤ (h : Int) - 2) (hj1 : 1 ≤ j) (hj2 : j ≤ (w : Int) - 2)
    (hnb : ∀ o ∈ offsets8, g (i + o.1) (j + o.2) = false) :
    nbrB h w g i j = 0 := by
  unfold nbrB
  rw [pAt_interior h w g i j 1 0 (by omega) (by omega) (by omega) (by omega),
    pAt_interior h w g i j 1 (-1) (by omega) (by omega) (by omega) (by omega),
    pAt_interior h w g i j 0 (-1) (by omega) (by omega) (by omega) (by omega),
    pAt_interior h w g i j (-1) (-1) (by omega) (by omega) (by omega) (by omega),
    pAt_interior h w g i j (-1) 0 (by omega) (by omega) (by omega) (by omega),
    pAt_interior h w g i j (-1) 1 (by omega) (by omega) (by omega) (by omega),
    pAt_interior h w g i j 0 1 (by omega) (by omega) (by omega) (by omega),
    pAt_interior h w g i j 1 1 (by omega) (by omega) (by omega) (by omega)]
  rw [hnb (1, 0) (by simp [offsets8]), hnb (1, -1) (by simp [offsets8]),
    hnb (0, -1) (by simp [offsets8]), hnb (-1, -1) (by simp [offsets8]),
    hnb (-1, 0) (by simp [offsets8]), hnb (-1, 1) (by simp [offsets8]),
    hnb (0, 1) (by simp [offsets8]), hnb (1, 1) (by simp [offsets8])]
  rfl

theorem thinCond1_false_of_isolated (h w : Nat) (g : Grid) (i j : Int)
    (hi1 : 1 ≤ i) (hi2 : i ≤ (h : Int) - 2) (hj1 : 1 ≤ j) (hj2 : j ≤ (w : Int) - 2)
    (hnb : ∀ o ∈ offsets8, g (i + o.1) (j + o.2) = false) :
    thinCond1 h w g i j = false := by
  unfold thinCond1
  rw [nbrB_eq_zero h w g i j hi1 hi2 hj1 hj2 hnb]
  simp

theorem thinCond2_false_of_isolated (h w : Nat) (g : Grid) (i j : Int)
    (hi1 : 1 ≤ i) (hi2 : i ≤ (h : Int) - 2) (hj1 : 1 ≤ j) (hj2 : j ≤ (w : Int) - 2)
    (hnb : ∀ o ∈ offsets8, g (i + o.1) (j + o.2) = false) :
    thinCond2 h w g i j = false := by
  unfold thinCond2
  rw [nbrB_eq_zero h w g i j hi1 hi2 hj1 hj2 hnb]
  simp

theorem thinSub1_keeps_isolated (h w : Nat) (g : Grid) (i j : Int)
    (hi1 : 1 ≤ i) (hi2 : i ≤ (h : Int) - 2) (hj1 : 1 ≤ j) (hj2 : j ≤ (w : Int) - 2)
    (hp : g i j = true)
    (hnb : ∀ o ∈ offsets8, g (i + o.1) (j + o.2) = false) :
    thinSub1 h w g i j = true ∧
      ∀ o ∈ offsets8, thinSub1 h w g (i + o.1) (j + o.2) = false := by
  have hint : ¬ (i = 0 ∨ i = (h : Int) - 1 ∨ j = 0 ∨ j = (w : Int) - 1) := by omega
  constructor
  · unfold thinSub1 clearBorders
    rw [if_neg hint]
    simp only [hp, thinCond1_false_of_isolated h w g i j hi1 hi2 hj1 hj2 hnb]
    rfl
  · intro o ho
    cases hx : thinSub1 h w g (i + o.1) (j + o.2) with
    | false => rfl
    | true =>
        have hcon := hnb o ho
        rw [thinSub1_subset h w g _ _ hx] at hcon
        exact absurd hcon (by simp)

theorem thinSub2_keeps_isolated (h w : Nat) (g : Grid) (i j : Int)
    (hi1 : 1 ≤ i) (hi2 : i ≤ (h : Int) - 2) (hj1 : 1 ≤ j) (hj2 : j ≤ (w : Int) - 2)
    (hp : g i j = true)
    (hnb : ∀ o ∈ offsets8, g (i + o.1) (j + o.2) = false) :
    thinSub2 h w g i j = true ∧
      ∀ o ∈ offsets8, thinSub2 h w g (i + o.1) (j + o.2) = false := by
  have hint : ¬ (i = 0 ∨ i = (h : Int) - 1 ∨ j = 0 ∨ j = (w : Int) - 1) := by omega
  constructor
  · unfold thinSub2 clearBorders
    rw [if_neg hint]
    simp only [hp, thinCond2_false_of_isolated h w g i j hi1 hi2 hj1 hj2 hnb]
    rfl
  · intro o ho
    cases hx : thinSub2 h w g (i + o.1) (j + o.2) with
    | false => rfl
    | true =>
        have hcon := hnb o ho
        rw [thinSub2_subset h w g _ _ hx] at hcon
        exact absurd hcon (by simp)

theorem thinIter_keeps_isolated (h w : Nat) (g : Grid) (i j : Int)
    (hi1 : 1 ≤ i) (hi2 : i ≤ (h : Int) - 2) (hj1 : 1 ≤ j) (hj2 : j ≤ (w : Int) - 2)
    (hp : g i j = true)
    (hnb : ∀ o ∈ offsets8, g (i + o.1) (j + o.2) = false) :
    (thinIter h w g).1 i j = true ∧
      ∀ o ∈ offsets8, (thinIter h w g).1 (i + o.1) (j + o.2) = false := by
  obtain ⟨h1, h1n⟩ := thinSub1_keeps_isolated h w g i j hi1 hi2 hj1 hj2 hp hnb
  exact thinSub2_keeps_isolated h w _ i j hi1 hi2 hj1 hj2 h1 h1n

theorem zsLoop_keeps_isolated (h w : Nat) (i j : Int)
    (hi1 : 1 ≤ i) (hi2 : i ≤ (h : Int) - 2) (hj1 : 1 ≤ j) (hj2 : j ≤ (w : Int) - 2) :
    ∀ (fuel : Nat) (g : Grid), g i j = true →
      (∀ o ∈ offsets8, g (i + o.1) (j + o.2) = false) →
      (zsLoop h w fuel g).1 i j = true := by
  intro fuel
  induction fuel with
  | zero => intro g hp _; exact hp
  | succ n ih =>
      intro g hp hnb
      obtain ⟨hkeep, hnb'⟩ := thinIter_keeps_isolated h w g i j hi1 hi2 hj1 hj2 hp hnb
      unfold zsLoop
      by_cases hch : (thinIter h w g).2 = true
      · simp only [hch, if_pos]
        exact ih _ hkeep hnb'
      · simp only [Bool.not_eq_true] at hch
        simp only [hch, Bool.false_eq_true, if_false]
        exact hkeep

/-- C4 (amended): the thinned skeleton is contained in the border-cleared
mask, and an interior foreground pixel with no true 8-neighbor in the mask
is never removed by thinning (isolated pixels persist); a skeleton pixel
may nevertheless have no true skeleton 8-neighbor even when the mask holds
more than one foreground pixel. -/
theorem zhang_suen_subset_and_isolated_persist (h w : Nat) (mask : Grid)
    (max_iter : Int) :
    (∀ i j, zhang_suen_thin h w mask max_iter i j = true →
      clearBorders h w mask i j = true) ∧
    (∀ i j, 1 ≤ i → i ≤ (h : Int) - 2 → 1 ≤ j → j ≤ (w : Int) - 2 →
      mask i j = true → hasTrueNbr8 mask i j = false →
      zhang_suen_thin h w mask max_iter i j = true) := by
  constructor
  · intro i j hz
    exact zsLoop_subset h w _ _ i j hz
  · intro i j hi1 hi2 hj1 hj2 hm hnb
    have hnb' : ∀ o ∈ offsets8, mask (i + o.1) (j + o.2) = false := by
      intro o ho
      have := List.any_eq_false.1 hnb o ho
      simpa using this
    refine zsLoop_keeps_isolated h w i j hi1 hi2 hj1 hj2 _ _ ?_ ?_
    · unfold clearBorders
      rw [if_neg (by omega : ¬ (i = 0 ∨ i = (h : Int) - 1 ∨ j = 0 ∨ j = (w : Int) - 1))]
      exact hm
    · intro o ho
      cases hx : clearBorders h w mask (i + o.1) (j + o.2) with
      | false => rfl
      | true =>
          have hcon := hnb' o ho
          rw [clearBorders_subset h w mask _ _ hx] at hcon
          exact absurd hcon (by simp)

/-- Mask with two isolated foreground pixels at `(1,1)` and `(1,3)` in a
5×5 grid. -/
def isolatedPairMask : Grid := fun i j =>
  (i == 1 && j == 1) || (i == 1 && j == 3)

/-- C4 counterexample: on the two-isolated-pixel mask the thinned skeleton
keeps both pixels, each of which has no true skeleton 8-neighbor, although
the mask holds two foreground pixels, refuting the claim as stated. -/
theorem skeleton_neighbor_claim_false :
    ¬ (∀ i j : Fin 5,
        zhang_suen_thin 5 5 isolatedPairMask 8 (i.val : Int) (j.val : Int) = true →
        hasTrueNbr8 (zhang_suen_thin 5 5 isolatedPairMask 8)
          (i.val : Int) (j.val : Int) = true ∨
        gridCount 5 5 isolatedPairMask = 1) := by
  decide

theorem zhang_suen_iteration_spec_witness :
    isolatedPairMask 1 1 = true ∧
      (zhang_suen_run 5 5 isolatedPairMask 8).2 ≤ (8 : Int).toNat :=
  ⟨(zhang_suen_iteration_spec 5 5 isolatedPairMask isolatedPairMask 8).1 1 1 (by decide),
    (zhang_suen_iteration_spec 5 5 isolatedPairMask isolatedPairMask 8).2.2⟩

theorem zhang_suen_subset_and_isolated_persist_witness :
    zhang_suen_thin 5 5 isolatedPairMask 8 1 1 = true :=
  (zhang_suen_subset_and_isolated_persist 5 5 isolatedPairMask 8).2 1 1
    (by norm_num) (by norm_num) (by norm_num) (by norm_num) (by decide) (by decide)

theorem findMax_fold_max_le (d : Point → Point → ℚ) (pts : List Point) (a b : Nat) :
    ∀ (l : List Nat) (s : ℚ × Option Nat),
      s.1 ≤ (l.foldl
        (fun s i =>
          let dd := perp_dist d (pts.getD i (0, 0)) (pts.getD a (0, 0)) (pts.getD b (0, 0))
          if dd > s.1 then (dd, some i) else s) s).1 := by
  intro l
  induction l with
  | nil => intro s; exact le_refl _
  | cons x xs ih =>
      intro s
      simp only [List.foldl_cons]
      by_cases hc : perp_dist d (pts.getD x (0, 0)) (pts.getD a (0, 0))
          (pts.getD b (0, 0)) > s.1
      · simp only [hc, if_pos]
        exact le_trans (le_of_lt hc) (ih _)
      · simp only [hc, if_neg, if_false]
        exact ih s

theorem findMax_fold_elem_le (d : Point → Point → ℚ) (pts : List Point) (a b : Nat) :
    ∀ (l : List Nat) (s : ℚ × Option Nat) (i : Nat), i ∈ l →
      perp_dist d (pts.getD i (0, 0)) (pts.getD a (0, 0)) (pts.getD b (0, 0)) ≤
        (l.foldl
          (fun s i =>
            let dd := perp_dist d (pts.getD i (0, 0)) (pts.getD a (0, 0)) (pts.getD b (0, 0))
            if dd > s.1 then (dd, some i) else s) s).1 := by
  intro l
  induction l with
  | nil => intro s i hi; exact absurd hi (List.not_mem_nil i)
  | cons x xs ih =>
      intro s i hi
      simp only [List.foldl_cons]
      rcases List.mem_cons.1 hi with rfl | hi'
      · by_cases hc : perp_dist d (pts.getD i (0, 0)) (pts.getD a (0, 0))
            (pts.getD b (0, 0)) > s.1
        · simp only [hc, if_pos]
          exact findMax_fold_max_le d pts a b xs _
        · simp only [hc, if_neg, if_false]
          push_neg at hc
          exact le_trans hc (findMax_fold_max_le d pts a b xs s)
      · by_cases hc : perp_dist d (pts.getD x (0, 0)) (pts.getD a (0, 0))
            (pts.getD b (0, 0)) > s.1
        · simp only [hc, if_pos]
          exact ih _ i hi'
        · simp only [hc, if_neg, if_false]
          exact ih s i hi'

/-- Every interior deviation is bounded by the scan's maximum. -/
theorem findMax_sound (d : Point → Point → ℚ) (pts : List Point) (a b : Nat)
    (i : Nat) (h1 : a < i) (h2 : i < b) :
    perp_dist d (pts.getD i (0, 0)) (pts.getD a (0, 0)) (pts.getD b (0, 0)) ≤
      (findMax d pts a b).1 := by
  unfold findMax
  exact findMax_fold_elem_le d pts a b _ _ i (List.mem_range'_1.2 (by omega))

theorem findMax_none_fold (d : Point → Point → ℚ) (pts : List Point) (a b : Nat) :
    ∀ (l : List Nat) (s : ℚ × Option Nat),
      (l.foldl
        (fun s i =>
          let dd := perp_dist d (pts.getD i (0, 0)) (pts.getD a (0, 0)) (pts.getD b (0, 0))
          if dd > s.1 then (dd, some i) else s) s).2 = none →
      (∀ i ∈ l,
        perp_dist d (pts.getD i (0, 0)) (pts.getD a (0, 0)) (pts.getD b (0, 0)) ≤ s.1) ∧
      (l.foldl
        (fun s i =>
          let dd := perp_dist d (pts.getD i (0, 0)) (pts.getD a (0, 0)) (pts.getD b (0, 0))
          if dd > s.1 then (dd, some i) else s) s) = s := by
  intro l
  induction l with
  | nil => intro s _; exact ⟨fun i hi => absurd hi (List.not_mem_nil i), rfl⟩
  | cons x xs ih =>
      intro s hnone
      simp only [List.foldl_cons] at hnone ⊢
      by_cases hc : perp_dist d (pts.getD x (0, 0)) (pts.getD a (0, 0))
          (pts.getD b (0, 0)) > s.1
      · exfalso
        simp only [hc, if_pos] at hnone
        obtain ⟨k', hk'⟩ := findMax_state_some d pts a b xs
          (perp_dist d (pts.getD x (0, 0)) (pts.getD a (0, 0)) (pts.getD b (0, 0)),
            some x) x rfl
        rw [hnone] at hk'
        exact Option.noConfusion hk'
      · simp only [hc, if_neg, if_false] at hnone ⊢
        push_neg at hc
        obtain ⟨hall, hfix⟩ := ih s hnone
        refine ⟨?_, hfix⟩
        intro i hi
        rcases List.mem_cons.1 hi with rfl | hi'
        · exact hc
        · exact hall i hi'

/-- If the scan reports no index, every interior deviation is at most the
initial `-1`. -/
theorem findMax_none_sound (d : Point → Point → ℚ) (pts : List Point) (a b : Nat)
    {m : ℚ} (hfm : findMax d pts a b = (m, none)) (i : Nat) (h1 : a < i) (h2 : i < b) :
    perp_dist d (pts.getD i (0, 0)) (pts.getD a (0, 0)) (pts.getD b (0, 0)) ≤ -1 := by
  have h2' : (findMax d pts a b).2 = none := by rw [hfm]
  unfold findMax at h2'
  have := (findMax_none_fold d pts a b _ _ h2').1 i (List.mem_range'_1.2 (by omega))
  exact this

/-- Indices outside the open interval `(a, b)` are untouched by `rec`. -/
theorem rdpRec_frame (d : Point → Point → ℚ) (pts : List Point) (eps : ℚ)
    (a b : Nat) (keep : Nat → Bool) :
    ∀ j, (j ≤ a ∨ b ≤ j) → rdpRec d pts eps a b keep j = keep j := by
  induction a, b, keep using rdpRec.induct d pts eps with
  | case1 a b keep m hfm =>
      intro j _
      rw [rdpRec, hfm]
  | case2 a b keep m idx hfm hm ih1 ih2 =>
      intro j hj
      obtain ⟨hb1, hb2⟩ := findMax_some_bounds d pts a b hfm
      simp only [dite_eq_ite] at ih1 ih2
      rw [rdpRec, hfm]
      simp only [hm, if_pos]
      rw [ih2 j (by omega), ih1 j (by omega)]
      simp only [show j ≠ idx from by omega, if_neg, if_false]
  | case3 a b keep m idx hfm hm =>
      intro j _
      rw [rdpRec, hfm]
      simp only [hm, if_neg, if_false]

/-- `rec` never clears an already-kept index. -/
theorem rdpRec_mono (d : Point → Point → ℚ) (pts : List Point) (eps : ℚ)
    (a b : Nat) (keep : Nat → Bool) :
    ∀ j, keep j = true → rdpRec d pts eps a b keep j = true := by
  induction a, b, keep using rdpRec.induct d pts eps with
  | case1 a b keep m hfm =>
      intro j hj
      rw [rdpRec, hfm]
      exact hj
  | case2 a b keep m idx hfm hm ih1 ih2 =>
      intro j hj
      simp only [dite_eq_ite] at ih1 ih2
      rw [rdpRec, hfm]
      simp only [hm, if_pos]
      refine ih2 j (ih1 j ?_)
      by_cases hji : j = idx
      · simp [hji]
      · simp only [hji, if_neg, if_false]
        exact hj
  | case3 a b keep m idx hfm hm =>
      intro j hj
      rw [rdpRec, hfm]
      simp only [hm, if_neg, if_false]
      exact hj

/-- Main invariant of `rec`: when `rec(a, b, keep)` is run on an interval
whose endpoints are kept and whose interior is clear, every interior index
it leaves dropped lies between two kept indices with no kept index
between them, and its deviation from that chord is at most `eps`. -/
theorem rdpRec_dropped (d : Point → Point → ℚ) (pts : List Point) (eps : ℚ)
    (heps : 0 < eps) (a b : Nat) (keep : Nat → Bool) :
    keep a = true → keep b = true →
    (∀ j, a < j → j < b → keep j = false) →
    ∀ i, a < i → i < b → rdpRec d pts eps a b keep i = false →
      ∃ a' b' : Nat, a ≤ a' ∧ a' < i ∧ i < b' ∧ b' ≤ b ∧
        rdpRec d pts eps a b keep a' = true ∧
        rdpRec d pts eps a b keep b' = true ∧
        (∀ j, a' < j → j < b' → rdpRec d pts eps a b keep j = false) ∧
        perp_dist d (pts.getD i (0, 0)) (pts.getD a' (0, 0)) (pts.getD b' (0, 0))
          ≤ eps := by
  induction a, b, keep using rdpRec.induct d pts eps with
  | case1 a b keep m hfm =>
      intro ha hb hint i hi1 hi2 _
      have heq : ∀ j, rdpRec d pts eps a b keep j = keep j := by
        intro j; rw [rdpRec, hfm]
      refine ⟨a, b, le_refl a, hi1, hi2, le_refl b, ?_, ?_, ?_, ?_⟩
      · rw [heq]; exact ha
      · rw [heq]; exact hb
      · intro j hj1 hj2; rw [heq]; exact hint j hj1 hj2
      · have := findMax_none_sound d pts a b hfm i hi1 hi2
        linarith
  | case3 a b keep m idx hfm hm =>
      intro ha hb hint i hi1 hi2 _
      have heq : ∀ j, rdpRec d pts eps a b keep j = keep j := by
        intro j; rw [rdpRec, hfm]; simp only [hm, if_neg, if_false]
      refine ⟨a, b, le_refl a, hi1, hi2, le_refl b, ?_, ?_, ?_, ?_⟩
      · rw [heq]; exact ha
      · rw [heq]; exact hb
      · intro j hj1 hj2; rw [heq]; exact hint j hj1 hj2
      · have hs := findMax_sound d pts a b i hi1 hi2
        rw [hfm] at hs
        push_neg at hm
        linarith
  | case2 a b keep m idx hfm hm ih1 ih2 =>
      intro ha hb hint i hi1 hi2 hidrop
      simp only [dite_eq_ite] at ih1 ih2
      obtain ⟨hb1, hb2⟩ := findMax_some_bounds d pts a b hfm
      have hres : ∀ j, rdpRec d pts eps a b keep j =
          rdpRec d pts eps idx b
            (rdpRec d pts eps a idx (fun j => if j = idx then true else keep j)) j := by
        intro j; rw [rdpRec, hfm]; simp only [hm, if_pos]
      have hframe_outer : ∀ j, j ≤ idx ∨ b ≤ j →
          rdpRec d pts eps idx b
            (rdpRec d pts eps a idx (fun j => if j = idx then true else keep j)) j =
          rdpRec d pts eps a idx (fun j => if j = idx then true else keep j) j :=
        rdpRec_frame d pts eps idx b _
      have hframe_inner : ∀ j, j ≤ a ∨ idx ≤ j →
          rdpRec d pts eps a idx (fun j => if j = idx then true else keep j) j =
            (if j = idx then true else keep j) :=
        rdpRec_frame d pts eps a idx _
      have hK1a : (if a = idx then true else keep a) = true := by
        simp only [show a ≠ idx from by omega, if_neg, if_false]; exact ha
      have hK1idx : (if idx = idx then true else keep idx) = true := by simp
      have hK2idx : rdpRec d pts eps a idx
          (fun j => if j = idx then true else keep j) idx = true :=
        rdpRec_mono d pts eps a idx _ idx (by simp)
      have hK2b : rdpRec d pts eps a idx
          (fun j => if j = idx then true else keep j) b = true := by
        rw [hframe_inner b (Or.inr (by omega))]
        simp only [show b ≠ idx from by omega, if_neg, if_false]
        exact hb
      rcases lt_trichotomy i idx with hcase | hcase | hcase
      · -- i in (a, idx): use the inner recursion
        have hK2i : rdpRec d pts eps a idx
            (fun j => if j = idx then true else keep j) i = false := by
          rw [← hframe_outer i (Or.inl (by omega)), ← hres i]
          exact hidrop
        obtain ⟨a', b', haa', ha'i, hib', hb'idx, hKa', hKb', hKint, hdd⟩ :=
          ih1 hK1a (by simp)
            (fun j h1 h2 => by
              simp only [show j ≠ idx from by omega, if_neg, if_false]
              exact hint j h1 (by omega))
            i hi1 hcase hK2i
        refine ⟨a', b', haa', ha'i, hib', by omega, ?_, ?_, ?_, hdd⟩
        · rw [hres a', hframe_outer a' (Or.inl (by omega))]; exact hKa'
        · rw [hres b', hframe_outer b' (Or.inl (by omega))]; exact hKb'
        · intro j hj1 hj2
          rw [hres j, hframe_outer j (Or.inl (by omega))]
          exact hKint j hj1 hj2
      · -- i = idx is kept, contradiction
        exfalso
        rw [hres i] at hidrop
        have : rdpRec d pts eps idx b
            (rdpRec d pts eps a idx (fun j => if j = idx then true else keep j)) i
              = true := by
          subst hcase
          exact rdpRec_mono d pts eps i b _ i hK2idx
        rw [this] at hidrop
        exact Bool.noConfusion hidrop
      · -- i in (idx, b): use the outer recursion
        have hdrop' : rdpRec d pts eps idx b
            (rdpRec d pts eps a idx (fun j => if j = idx then true else keep j)) i
              = false := by
          rw [← hres i]; exact hidrop
        obtain ⟨a', b', haa', ha'i, hib', hb'b, hKa', hKb', hKint, hdd⟩ :=
          ih2 hK2idx hK2b
            (fun j h1 h2 => by
              rw [hframe_inner j (Or.inr (by omega))]
              simp only [show j ≠ idx from by omega, if_neg, if_false]
              exact hint j (by omega) h2)
            i hcase hi2 hdrop'
        refine ⟨a', b', by omega, ha'i, hib', hb'b, ?_, ?_, ?_, hdd⟩
        · rw [hres a']; exact hKa'
        · rw [hres b']; exact hKb'
        · intro j hj1 hj2
          rw [hres j]
          exact hKint j hj1 hj2

theorem extractKeep_head? (keep : Nat → Bool) (pts : List Point)
    (h0 : keep 0 = true) (hne : pts ≠ []) :
    (extractKeep keep 0 pts).head? = pts.head? := by
  cases pts with
  | nil => exact absurd rfl hne
  | cons p rest => simp [extractKeep, h0]

theorem extractKeep_getLast? (keep : Nat → Bool) :
    ∀ (pts : List Point) (k : Nat), pts ≠ [] → keep (k + pts.length - 1) = true →
      (extractKeep keep k pts).getLast? = pts.getLast? := by
  intro pts
  induction pts with
  | nil => intro k h _; exact absurd rfl h
  | cons p rest ih =>
      intro k _ hl
      cases rest with
      | nil =>
          have hk : keep k = true := by simpa using hl
          simp [extractKeep, hk]
      | cons q rest' =>
          have ihh := ih (k + 1) (by simp)
            (by
              have harith : k + 1 + (q :: rest').length - 1
                  = k + (p :: q :: rest').length - 1 := by
                simp only [List.length_cons]
                omega
              rw [harith]; exact hl)
          have hdef : extractKeep keep k (p :: q :: rest')
              = if keep k then p :: extractKeep keep (k + 1) (q :: rest')
                else extractKeep keep (k + 1) (q :: rest') := rfl
          by_cases hk : keep k
          · rw [hdef, if_pos hk]
            have hE : extractKeep keep (k + 1) (q :: rest') ≠ [] := by
              intro hnil
              rw [hnil] at ihh
              simp [List.getLast?] at ihh
            cases hEeq : extractKeep keep (k + 1) (q :: rest') with
            | nil => exact absurd hEeq hE
            | cons e es =>
                rw [hEeq] at ihh
                rw [List.getLast?_cons_cons, ihh, List.getLast?_cons_cons]
          · rw [hdef, if_neg hk, ihh, List.getLast?_cons_cons]

theorem rdpKeep_zero (d : Point → Point → ℚ) (pts : List Point) (eps : ℚ) :
    rdpKeep d pts eps 0 = true :=
  rdpRec_mono d pts eps 0 (pts.length - 1) _ 0 (by simp)

theorem rdpKeep_last (d : Point → Point → ℚ) (pts : List Point) (eps : ℚ) :
    rdpKeep d pts eps (pts.length - 1) = true :=
  rdpRec_mono d pts eps 0 (pts.length - 1) _ (pts.length - 1) (by simp)

/-- C3: `rdp_simplify` keeps the first and last point of every input, and
every dropped point lies between two consecutive retained indices with
deviation (as computed by `_perp_dist`) at most `eps` from their chord. -/
theorem rdp_simplify_spec (d : Point → Point → ℚ) (pts : List Point) (eps : ℚ) :
    (rdp_simplify d pts eps).head? = pts.head? ∧
    (rdp_simplify d pts eps).getLast? = pts.getLast? ∧
    (¬ (eps ≤ 0 ∨ pts.length < 3) →
      rdp_simplify d pts eps = extractKeep (rdpKeep d pts eps) 0 pts) ∧
    (0 < eps → 3 ≤ pts.length →
      ∀ i, i < pts.length → rdpKeep d pts eps i = false →
        ∃ a b : Nat, a < i ∧ i < b ∧ b ≤ pts.length - 1 ∧
          rdpKeep d pts eps a = true ∧ rdpKeep d pts eps b = true ∧
          (∀ j, a < j → j < b → rdpKeep d pts eps j = false) ∧
          perp_dist d (pts.getD i (0, 0)) (pts.getD a (0, 0)) (pts.getD b (0, 0))
            ≤ eps) := by
  refine ⟨?_, ?_, ?_, ?_⟩
  · unfold rdp_simplify
    by_cases hg : eps ≤ 0 ∨ pts.length < 3
    · rw [if_pos hg]
    · rw [if_neg hg]
      push_neg at hg
      refine extractKeep_head? _ pts (rdpKeep_zero d pts eps) ?_
      intro hnil
      rw [hnil] at hg
      simp at hg
  · unfold rdp_simplify
    by_cases hg : eps ≤ 0 ∨ pts.length < 3
    · rw [if_pos hg]
    · rw [if_neg hg]
      push_neg at hg
      refine extractKeep_getLast? _ pts 0 ?_ ?_
      · intro hnil
        rw [hnil] at hg
        simp at hg
      · simpa using rdpKeep_last d pts eps
  · intro hg
    unfold rdp_simplify
    rw [if_neg hg]
  · intro heps hlen i hi hidrop
    have hi0 : i ≠ 0 := by
      intro h0
      rw [h0, rdpKeep_zero d pts eps] at hidrop
      exact Bool.noConfusion hidrop
    have hilast : i ≠ pts.length - 1 := by
      intro hL
      rw [hL, rdpKeep_last d pts eps] at hidrop
      exact Bool.noConfusion hidrop
    obtain ⟨a, b, _, hai, hib, hbl, hka, hkb, hkint, hdd⟩ :=
      rdpRec_dropped d pts eps heps 0 (pts.length - 1) _
        (by simp) (by simp)
        (fun j hj1 hj2 => by
          simp only [Bool.or_eq_false_iff]
          constructor
          · simpa using (by omega : j ≠ 0)
          · simpa using (by omega : j ≠ pts.length - 1))
        i (by omega) (by omega) hidrop
    exact ⟨a, b, hai, hib, hbl, hka, hkb, hkint, hdd⟩

/-- The everywhere-zero distance function, a concrete instance of the
abstract `d`. -/
def dZero : Point → Point → ℚ := fun _ _ => 0

/-- Three collinear sample points. -/
def pts3 : List Point := [(0, 0), (1, 0), (2, 0)]

theorem rdpKeep_pts3_middle : rdpKeep dZero pts3 1 1 = false := by
  have hfm : findMax dZero pts3 0 (pts3.length - 1) = ((0 : ℚ), some 1) := by
    norm_num [findMax, List.range', perp_dist, pts3, dZero]
  unfold rdpKeep
  rw [rdpRec, hfm]
  norm_num [pts3]

theorem rdp_simplify_spec_witness :
    ∃ a b : Nat, a < 1 ∧ 1 < b ∧ b ≤ pts3.length - 1 ∧
      rdpKeep dZero pts3 1 a = true ∧ rdpKeep dZero pts3 1 b = true ∧
      (∀ j, a < j → j < b → rdpKeep dZero pts3 1 j = false) ∧
      perp_dist dZero (pts3.getD 1 (0, 0)) (pts3.getD a (0, 0)) (pts3.getD b (0, 0))
        ≤ 1 :=
  (rdp_simplify_spec dZero pts3 1).2.2.2 (by norm_num) (by norm_num [pts3]) 1
    (by norm_num [pts3]) rdpKeep_pts3_middle

theorem reorderLoop_perm (f : Point → Stroke → ℚ × ℚ) :
    ∀ (rem : List Stroke) (cur : Point),
      ∃ l', rem.Perm l' ∧ List.Forall₂ UpToRev l' (reorderLoop f rem cur) := by
  intro rem cur
  induction rem, cur using reorderLoop.induct f with
  | case1 cur =>
      refine ⟨[], List.Perm.refl [], ?_⟩
      rw [reorderLoop]
      exact List.Forall₂.nil
  | case2 st rest cur_pt ch pr nxt ih =>
      obtain ⟨l'', hperm, hfa⟩ := ih
      refine ⟨pr.1 :: l'', ?_, ?_⟩
      · exact (popIdx_perm (st :: rest) ch.2.1 (by simp)).trans (hperm.cons pr.1)
      · rw [reorderLoop]
        refine List.Forall₂.cons ?_ hfa
        unfold UpToRev
        by_cases hrev : (bestChoice f cur_pt (st :: rest)).2.2 = true
        · right
          rw [if_pos hrev]
        · left
          rw [if_neg hrev]

/-- C6: both reorderers return a permutation of the input strokes in
which each stroke appears unchanged or reversed; nothing is duplicated
or dropped. -/
theorem reorder_preserves_strokes (d : Point → Point → ℚ)
    (lr_penalty up_penalty left_penalty : ℚ) (strokes : List Stroke) :
    (∃ l', strokes.Perm l' ∧
      List.Forall₂ UpToRev l' (reorder_strokes_lr d lr_penalty strokes)) ∧
    (∃ l', strokes.Perm l' ∧
      List.Forall₂ UpToRev l'
        (reorder_strokes_tlbr d up_penalty left_penalty strokes)) := by
  constructor
  · unfold reorder_strokes_lr
    by_cases hs : strokes = []
    · rw [if_pos hs, hs]
      exact ⟨[], List.Perm.refl [], List.Forall₂.nil⟩
    · rw [if_neg hs]
      have hsort := List.perm_insertionSort
        (fun s t => (stroke_bbox_x s).1 ≤ (stroke_bbox_x t).1) strokes
      cases hsrt : List.insertionSort
          (fun s t => (stroke_bbox_x s).1 ≤ (stroke_bbox_x t).1) strokes with
      | nil =>
          rw [hsrt] at hsort
          exact absurd hsort.nil_eq.symm hs
      | cons cur rest =>
          rw [hsrt] at hsort
          obtain ⟨l'', hperm, hfa⟩ := reorderLoop_perm _ rest (cur.pts.getLastD (0, 0))
          exact ⟨cur :: l'', (hsort.symm).trans (hperm.cons cur),
            List.Forall₂.cons (Or.inl rfl) hfa⟩
  · unfold reorder_strokes_tlbr
    by_cases hs : strokes = []
    · rw [if_pos hs, hs]
      exact ⟨[], List.Perm.refl [], List.Forall₂.nil⟩
    · rw [if_neg hs]
      have hsort := List.perm_insertionSort
        (fun s t => -(stroke_bbox_y s).2 < -(stroke_bbox_y t).2 ∨
          (-(stroke_bbox_y s).2 = -(stroke_bbox_y t).2 ∧
            (stroke_bbox_x s).1 ≤ (stroke_bbox_x t).1)) strokes
      cases hsrt : List.insertionSort
          (fun s t => -(stroke_bbox_y s).2 < -(stroke_bbox_y t).2 ∨
            (-(stroke_bbox_y s).2 = -(stroke_bbox_y t).2 ∧
              (stroke_bbox_x s).1 ≤ (stroke_bbox_x t).1)) strokes with
      | nil =>
          rw [hsrt] at hsort
          exact absurd hsort.nil_eq.symm hs
      | cons cur rest =>
          rw [hsrt] at hsort
          obtain ⟨l'', hperm, hfa⟩ := reorderLoop_perm _ rest (cur.pts.getLastD (0, 0))
          exact ⟨cur :: l'', (hsort.symm).trans (hperm.cons cur),
            List.Forall₂.cons (Or.inl rfl) hfa⟩

theorem foldl_traceWalkStep_all_long (h w : Nat) (skel : Grid)
    (deg : Int → Int → Nat) :
    ∀ (l : List Cell) (acc : List (List Cell) × Grid),
      (∀ p ∈ acc.1, 2 ≤ p.length) →
      ∀ p ∈ (l.foldl (traceWalkStep h w skel deg) acc).1, 2 ≤ p.length := by
  intro l
  induction l with
  | nil => intro acc hacc; exact hacc
  | cons x xs ih =>
      intro acc hacc
      simp only [List.foldl_cons]
      refine ih _ ?_
      unfold traceWalkStep
      by_cases hv : acc.2 x.1 x.2 = true
      · rw [if_pos hv]; exact hacc
      · rw [if_neg hv]
        intro p hp
        by_cases hlen : 2 ≤ (walk h w skel deg x acc.2).1.length
        · simp only [hlen, if_pos, List.mem_append, List.mem_singleton] at hp
          rcases hp with hp | rfl
          · exact hacc p hp
          · exact hlen
        · simp only [hlen, if_neg, if_false] at hp
          exact hacc p hp

theorem traceSegmentPix_two_points (h w : Nat) (skel : Grid) :
    ∀ pix ∈ traceSegmentPix h w skel, 2 ≤ pix.length := by
  intro pix hpix
  unfold traceSegmentPix at hpix
  refine foldl_traceWalkStep_all_long h w skel _ _ _ ?_ pix hpix
  exact foldl_traceWalkStep_all_long h w skel _ _ _ (by intro p hp; cases hp)

theorem trace_strokes_two_points (d : Point → Point → ℚ) (h w : Nat)
    (skel : Grid) (pixel_mm width_mm height_mm min_stroke_mm : ℚ) :
    ∀ s ∈ trace_skeleton_to_strokes d h w skel pixel_mm width_mm height_mm
      min_stroke_mm, 2 ≤ s.pts.length := by
  intro s hs
  unfold trace_skeleton_to_strokes at hs
  obtain ⟨pix, hpix, hf⟩ := List.mem_filterMap.1 hs
  by_cases hlen : polylineLen d
      (pix.map (fun rc => to_mm pixel_mm width_mm height_mm rc.1 rc.2))
      < min_stroke_mm
  · rw [if_pos hlen] at hf
    exact Option.noConfusion hf
  · rw [if_neg hlen] at hf
    have hs' : s = Stroke.mk
        (pix.map (fun rc => to_mm pixel_mm width_mm height_mm rc.1 rc.2)) :=
      (Option.some_inj.1 hf).symm
    rw [hs']
    simp only [List.length_map]
    exact traceSegmentPix_two_points h w skel pix hpix

theorem nbrsList_ne_self (h w : Nat) (skel : Grid) (r c : Int) :
    ∀ x ∈ nbrsList h w skel r c, x ≠ (r, c) := by
  intro x hx
  obtain ⟨o, ho, hif⟩ := List.mem_filterMap.1 hx
  by_cases hc : (inB h w (r + o.1) (c + o.2) && skel (r + o.1) (c + o.2)) = true
  · rw [if_pos hc] at hif
    have hxo : x = (r + o.1, c + o.2) := (Option.some_inj.1 hif).symm
    subst hxo
    simp only [offsets8, List.mem_cons, List.not_mem_nil, or_false] at ho
    intro hcontra
    rw [Prod.mk.injEq] at hcontra
    rcases ho with rfl | rfl | rfl | rfl | rfl | rfl | rfl | rfl <;> omega
  · rw [if_neg hc] at hif
    exact Option.noConfusion hif

theorem pickStart_hasEdge (h w : Nat) (skel : Grid) (nodes : List Cell)
    (edges : Finset EdgeKey) (s : Cell)
    (hp : pickStart h w skel nodes edges = some s) :
    hasRemainingEdge h w skel edges s = true := by
  unfold pickStart at hp
  split at hp
  · exact Option.noConfusion hp
  · rename_i c cs hrn
    have hmem : s ∈ remainingNodes h w skel nodes edges := by
      split at hp
      · rename_i e es hf
        have hse : s = e := (Option.some_inj.1 hp).symm
        have hef : e ∈ (c :: cs).filter (fun a =>
            (nbrsList h w skel a.1 a.2).countP
              (fun b => decide (edge_key a b ∈ edges)) == 1) := by
          rw [hf]
          exact List.mem_cons_self e es
        rw [hrn, hse]
        exact List.mem_of_mem_filter hef
      · have hsc : s = c := (Option.some_inj.1 hp).symm
        rw [hrn, hsc]
        exact List.mem_cons_self c cs
    unfold remainingNodes at hmem
    exact (List.mem_filter.1 hmem).2

theorem hasRemainingEdge_nonempty (h w : Nat) (skel : Grid)
    (edges : Finset EdgeKey) (a : Cell)
    (he : hasRemainingEdge h w skel edges a = true) : edges ≠ ∅ := by
  unfold hasRemainingEdge at he
  obtain ⟨b, _, hb⟩ := List.any_eq_true.1 he
  intro hcon
  rw [hcon] at hb
  simp at hb

theorem trace_single_two_points (h w : Nat) (skel : Grid)
    (pixel_mm width_mm height_mm : ℚ) :
    ∀ s ∈ trace_skeleton_to_single_stroke h w skel pixel_mm width_mm height_mm,
      2 ≤ s.pts.length := by
  intro s hs
  unfold trace_skeleton_to_single_stroke at hs
  by_cases hn : rowMajorCells h w skel = []
  · rw [if_pos hn] at hs; cases hs
  · rw [if_neg hn] at hs
    dsimp only at hs
    cases hps : pickStart h w skel (rowMajorCells h w skel) (skelEdges h w skel) with
    | none => rw [hps] at hs; simp at hs
    | some start =>
        rw [hps] at hs
        simp only [List.mem_singleton] at hs
        have hedge := pickStart_hasEdge h w skel _ _ start hps
        have hne := hasRemainingEdge_nonempty h w skel _ start hedge
        have hfind : ∃ nxt, findEdgeNbr h w skel (skelEdges h w skel) start
            = some nxt := by
          unfold hasRemainingEdge at hedge
          unfold findEdgeNbr
          cases hf : (nbrsList h w skel start.1 start.2).find?
              (fun b => decide (edge_key start b ∈ skelEdges h w skel)) with
          | some x => exact ⟨x, rfl⟩
          | none =>
              rw [List.find?_eq_none] at hf
              obtain ⟨x, hx, hpx⟩ := List.any_eq_true.1 hedge
              exact absurd hpx (by simp [hf x hx])
        obtain ⟨nxt, hnxt⟩ := hfind
        have htail : singleWalkLoop h w skel (rowMajorCells h w skel)
            (2 * (skelEdges h w skel).card + 2) (skelEdges h w skel) start
            = nxt :: singleWalkLoop h w skel (rowMajorCells h w skel)
              (2 * (skelEdges h w skel).card + 1)
              ((skelEdges h w skel).erase (edge_key start nxt)) nxt := by
          conv_lhs => rw [show 2 * (skelEdges h w skel).card + 2
              = (2 * (skelEdges h w skel).card + 1) + 1 from rfl]
          conv_lhs => rw [singleWalkLoop]
          rw [if_neg hne, if_neg (by rw [hedge]; simp), hnxt]
        have hnxts : nxt ≠ start := by
          have hmem := List.mem_of_find?_eq_some hnxt
          exact fun hcon => nbrsList_ne_self h w skel start.1 start.2 nxt hmem
            (by rw [hcon])
        rw [hs, htail]
        simp only [dedupAdj, hnxts, if_neg, if_false, List.length_map,
          List.length_cons]
        omega

/-- C9: every stroke the pipeline returns, under either tracing policy,
has at least 2 points. -/
theorem pipeline_stroke_min_points (d : Point → Point → ℚ) (h w : Nat)
    (mask : Grid) (width_mm height_mm raster_mm close_mm min_stroke_mm : ℚ)
    (thin_max_iter : Int) (method : SkelMethod) (mode : TraceMode)
    (l : List Stroke)
    (hok : text_to_centerline_strokes_mm d h w mask width_mm height_mm raster_mm
      close_mm min_stroke_mm thin_max_iter method mode = .ok l) :
    ∀ s ∈ l, 2 ≤ s.pts.length := by
  unfold text_to_centerline_strokes_mm at hok
  by_cases h1 : gridCount h w mask = 0
  · rw [if_pos h1] at hok
    exact PipelineResult.noConfusion hok
  · rw [if_neg h1] at hok
    dsimp only at hok
    by_cases h2 : gridCount h w
        (pipelineSkeleton h w mask close_mm raster_mm thin_max_iter method) = 0
    · rw [if_pos h2] at hok
      exact PipelineResult.noConfusion hok
    · rw [if_neg h2] at hok
      by_cases h3 : pipelineTrace d h w
          (pipelineSkeleton h w mask close_mm raster_mm thin_max_iter method)
          raster_mm width_mm height_mm min_stroke_mm mode = []
      · rw [if_pos h3] at hok
        exact PipelineResult.noConfusion hok
      · rw [if_neg h3] at hok
        have hl : pipelineTrace d h w
            (pipelineSkeleton h w mask close_mm raster_mm thin_max_iter method)
            raster_mm width_mm height_mm min_stroke_mm mode = l := by
          injection hok
        rw [← hl]
        cases mode with
        | walkMode =>
            exact trace_single_two_points h w _ raster_mm width_mm height_mm
        | segment =>
            exact trace_strokes_two_points d h w _ raster_mm width_mm height_mm
              min_stroke_mm

/-- C1: the pipeline fails with `EmptyRaster` exactly when the mask has no
foreground pixel, with `SkeletonCollapse` exactly when the skeleton is
empty (mask non-empty), with `NoUsableStrokes` exactly when tracing kept
no stroke (mask and skeleton non-empty); in every other case it returns
the non-empty traced stroke list. -/
theorem pipeline_error_spec (d : Point → Point → ℚ) (h w : Nat) (mask : Grid)
    (width_mm height_mm raster_mm close_mm min_stroke_mm : ℚ)
    (thin_max_iter : Int) (method : SkelMethod) (mode : TraceMode) :
    (text_to_centerline_strokes_mm d h w mask width_mm height_mm raster_mm
        close_mm min_stroke_mm thin_max_iter method mode = .err .EmptyRaster ↔
      gridCount h w mask = 0) ∧
    (text_to_centerline_strokes_mm d h w mask width_mm height_mm raster_mm
        close_mm min_stroke_mm thin_max_iter method mode = .err .SkeletonCollapse ↔
      gridCount h w mask ≠ 0 ∧
      gridCount h w (pipelineSkeleton h w mask close_mm raster_mm thin_max_iter
        method) = 0) ∧
    (text_to_centerline_strokes_mm d h w mask width_mm height_mm raster_mm
        close_mm min_stroke_mm thin_max_iter method mode = .err .NoUsableStrokes ↔
      gridCount h w mask ≠ 0 ∧
      gridCount h w (pipelineSkeleton h w mask close_mm raster_mm thin_max_iter
        method) ≠ 0 ∧
      pipelineTrace d h w (pipelineSkeleton h w mask close_mm raster_mm
        thin_max_iter method) raster_mm width_mm height_mm min_stroke_mm mode
        = []) ∧
    ((gridCount h w mask ≠ 0 ∧
      gridCount h w (pipelineSkeleton h w mask close_mm raster_mm thin_max_iter
        method) ≠ 0 ∧
      pipelineTrace d h w (pipelineSkeleton h w mask close_mm raster_mm
        thin_max_iter method) raster_mm width_mm height_mm min_stroke_mm mode
        ≠ []) →
      text_to_centerline_strokes_mm d h w mask width_mm height_mm raster_mm
          close_mm min_stroke_mm thin_max_iter method mode
        = .ok (pipelineTrace d h w (pipelineSkeleton h w mask close_mm raster_mm
            thin_max_iter method) raster_mm width_mm height_mm min_stroke_mm
            mode) ∧
      pipelineTrace d h w (pipelineSkeleton h w mask close_mm raster_mm
        thin_max_iter method) raster_mm width_mm height_mm min_stroke_mm mode
        ≠ []) := by
  unfold text_to_centerline_strokes_mm
  by_cases h1 : gridCount h w mask = 0
  · rw [if_pos h1]
    exact ⟨⟨fun _ => h1, fun _ => rfl⟩,
      ⟨fun hcon => absurd hcon (by decide), fun hand => absurd h1 hand.1⟩,
      ⟨fun hcon => absurd hcon (by decide), fun hand => absurd h1 hand.1⟩,
      fun hand => absurd h1 hand.1⟩
  · rw [if_neg h1]
    dsimp only
    by_cases h2 : gridCount h w
        (pipelineSkeleton h w mask close_mm raster_mm thin_max_iter method) = 0
    · rw [if_pos h2]
      exact ⟨⟨fun hcon => absurd hcon (by decide), fun h0 => absurd h0 h1⟩,
        ⟨fun _ => ⟨h1, h2⟩, fun _ => rfl⟩,
        ⟨fun hcon => absurd hcon (by decide), fun hand => absurd h2 hand.2.1⟩,
        fun hand => absurd h2 hand.2.1⟩
    · rw [if_neg h2]
      by_cases h3 : pipelineTrace d h w
          (pipelineSkeleton h w mask close_mm raster_mm thin_max_iter method)
          raster_mm width_mm height_mm min_stroke_mm mode = []
      · rw [if_pos h3]
        exact ⟨⟨fun hcon => absurd hcon (by decide), fun h0 => absurd h0 h1⟩,
          ⟨fun hcon => absurd hcon (by decide), fun hand => absurd hand.2 h2⟩,
          ⟨fun _ => ⟨h1, h2, h3⟩, fun _ => rfl⟩,
          fun hand => absurd h3 hand.2.2⟩
      · rw [if_neg h3]
        exact ⟨⟨fun hcon => PipelineResult.noConfusion hcon, fun h0 => absurd h0 h1⟩,
          ⟨fun hcon => PipelineResult.noConfusion hcon,
            fun hand => absurd hand.2 h2⟩,
          ⟨fun hcon => PipelineResult.noConfusion hcon,
            fun hand => absurd hand.2.2 h3⟩,
          fun _ => ⟨rfl, h3⟩⟩

/-- A 5×5 mask holding a 3-pixel horizontal bar in row 2. -/
def rowMask : Grid := fun i j => i == 2 && (j == 1 || j == 2 || j == 3)

theorem pipeline_error_spec_witness :
    text_to_centerline_strokes_mm dZero 5 5 rowMask 5 5 1 0 0 3
        SkelMethod.thinning TraceMode.segment
      = .ok (pipelineTrace dZero 5 5
          (pipelineSkeleton 5 5 rowMask 0 1 3 SkelMethod.thinning) 1 5 5 0
          TraceMode.segment) ∧
    pipelineTrace dZero 5 5 (pipelineSkeleton 5 5 rowMask 0 1 3
      SkelMethod.thinning) 1 5 5 0 TraceMode.segment ≠ [] :=
  (pipeline_error_spec dZero 5 5 rowMask 5 5 1 0 0 3 SkelMethod.thinning
    TraceMode.segment).2.2.2
    ⟨by decide, by with_unfolding_all decide, by with_unfolding_all decide⟩

theorem pipeline_stroke_min_points_witness :
    2 ≤ (Stroke.mk [((3 : ℚ)/2, (5 : ℚ)/2), (5/2, 5/2), (7/2, 5/2)]).pts.length :=
  pipeline_stroke_min_points dZero 5 5 rowMask 5 5 1 0 0 3 SkelMethod.thinning
    TraceMode.segment
    [Stroke.mk [((3 : ℚ)/2, (5 : ℚ)/2), (5/2, 5/2), (7/2, 5/2)]]
    (by with_unfolding_all decide)
    (Stroke.mk [((3 : ℚ)/2, (5 : ℚ)/2), (5/2, 5/2), (7/2, 5/2)])
    (List.mem_singleton.2 rfl)

/-- A concrete 2×2 mask with a single pixel at the origin. -/
def cornerMask : Grid := fun i j => i == 0 && j == 0

theorem morphology_spec_witness :
    (binary_dilate 2 2 1 cornerMask 1 1 = true ↔
      ∃ i' j' : Int, inB 2 2 i' j' = true ∧
        max ((1 : Int) - i').natAbs ((1 : Int) - j').natAbs ≤ (1 : Int).toNat ∧
        cornerMask i' j' = true) ∧
    binary_close 2 2 0 cornerMask = cornerMask :=
  ⟨(morphology_spec 2 2 1 cornerMask).1 (by norm_num) 1 1 (by decide),
    ((morphology_spec 2 2 0 cornerMask).2.2 (by norm_num)).2.2⟩

end Firmwork
